import Mathlib

/-!
Verification of the frame-boundary scanner, lazy frame iterator, per-object
indexer and reduction dispatcher of `src/batch.rs` (the `Batch` type).

The model works at the byte level: a Rust `&str` is its UTF-8 byte list,
`List Nat`.  The source reads characters through `s.get(pos..pos+1)`, which
yields a slice exactly when `pos` and `pos + 1` are character boundaries,
i.e. exactly when the byte at `pos` is a single-byte (ASCII, `< 128`)
character; `sget` below models that.  External collaborators (the literal
scanners `scan_for_integer` / `scan_for_float` / `scan_for_string`, the
`Frame` record type and the LWW/Set reducers) are not part of this
repository's sources; they are modelled from the spec or taken as
parameters, as noted on each definition.
-/

/-- Model of `s.get(pos..pos+1)` on a UTF-8 string viewed as its byte list:
the one-byte slice exists exactly when `pos` is in bounds and the byte at
`pos` is a single-byte (ASCII) character.  On valid UTF-8 a byte `≥ 128` at
`pos` is part of a multi-byte character, so `pos..pos+1` is not a boundary
pair and `get` returns none. -/
def sget (s : List Nat) (pos : Nat) : Option Nat :=
  match s.get? pos with
  | some b => if b < 128 then some b else none
  | none => none

/-- `char::is_whitespace` restricted to ASCII bytes (the only bytes `sget`
can produce): true exactly for bytes 9, 10, 11, 12, 13 and 32. -/
def isWs (b : Nat) : Bool :=
  b == 9 || b == 10 || b == 11 || b == 12 || b == 13 || b == 32

/-- The character test inside `Batch::scan_uuid`: a base-36 digit
(`is_digit(36)`: 0-9, a-z, A-Z) or one of the punctuation bytes
126 95 45 43 37 40 123 91 41 125 93. -/
def isUuidByte (b : Nat) : Bool :=
  (decide (48 ≤ b) && decide (b ≤ 57)) ||
  (decide (65 ≤ b) && decide (b ≤ 90)) ||
  (decide (97 ≤ b) && decide (b ≤ 122)) ||
  b == 126 || b == 95 || b == 45 || b == 43 || b == 37 ||
  b == 40 || b == 123 || b == 91 || b == 41 || b == 125 || b == 93

/-- `Batch::scan_uuid`: byte length of the leading run of UUID characters.
The loop reads one-byte slices, so it also stops at a multi-byte character
(`get(ret..ret+1)` returns none there). -/
def scan_uuid : List Nat → Nat
  | [] => 0
  | b :: rest =>
    if decide (b < 128) && isUuidByte b then scan_uuid rest + 1 else 0

/-- Length of a leading run of ASCII decimal digits. -/
def digitRun : List Nat → Nat
  | [] => 0
  | b :: rest =>
    if decide (48 ≤ b) && decide (b ≤ 57) then digitRun rest + 1 else 0

/-- Modelled from the spec: the external integer-literal scanner
`scan_for_integer` (its source is not in this repository; the spec only
says it returns the consumed length of a leading integer token or "not
found").  Modelled as an optional minus sign followed by a nonempty digit
run. -/
def scan_for_integer (s : List Nat) : Option Nat :=
  match s with
  | 45 :: rest => if digitRun rest = 0 then none else some (digitRun rest + 1)
  | _ => if digitRun s = 0 then none else some (digitRun s)

/-- Modelled from the spec: the external float-literal scanner
`scan_for_float` (not in this repository).  Modelled as an integer token
optionally followed by a decimal point and a nonempty digit run. -/
def scan_for_float (s : List Nat) : Option Nat :=
  match scan_for_integer s with
  | none => none
  | some n =>
    match s.drop n with
    | 46 :: rest =>
      if digitRun rest = 0 then some n else some (n + 1 + digitRun rest)
    | _ => some n

/-- Modelled from the spec: the external quoted-string scanner
`scan_for_string` (not in this repository).  It returns the byte length of
the content before the closing quote (byte 39), or none when no closing
quote exists; the caller adds 2 for the two quotes. -/
def scan_for_string : List Nat → Option Nat
  | [] => none
  | b :: rest =>
    if b == 39 then some 0 else (scan_for_string rest).map (fun n => n + 1)

/-- The local state enum of `Batch::scan`. -/
inductive Scan where
  | initial
  | sawType
  | sawObject
  | sawEvent
  | sawLoc
deriving DecidableEq, Fintype

theorem sget_lt {s : List Nat} {pos : Nat} {b : Nat}
    (h : sget s pos = some b) : pos < s.length := by
  unfold sget at h
  cases hg : s.get? pos with
  | none => rw [hg] at h; exact absurd h (by simp)
  | some c =>
    exact List.get?_eq_some.mp hg |>.1

theorem sget_lt128 {s : List Nat} {pos : Nat} {b : Nat}
    (h : sget s pos = some b) : b < 128 ∧ s.get? pos = some b := by
  unfold sget at h
  cases hg : s.get? pos with
  | none => rw [hg] at h; exact absurd h (by simp)
  | some c =>
    rw [hg] at h
    by_cases hc : c < 128
    · simp [hc] at h; subst h; exact ⟨hc, rfl⟩
    · simp [hc] at h

/-- The header-marker arms of the `// spec` match in `Batch::scan`
(lines 137-157), one arm per accepted (state, marker) pair exactly as in
the source: `*` is byte 42, `#` is 35, `@` is 64, `:` is 58.  `none` means
the pair falls through to the whitespace-or-break arm. -/
def hdrStep : Scan → Nat → Option Scan
  | .initial, 42 => some .sawType
  | .initial, 35 => some .sawObject
  | .sawType, 35 => some .sawObject
  | .initial, 64 => some .sawEvent
  | .sawType, 64 => some .sawEvent
  | .sawObject, 64 => some .sawEvent
  | .initial, 58 => some .sawLoc
  | .sawType, 58 => some .sawLoc
  | .sawObject, 58 => some .sawLoc
  | .sawEvent, 58 => some .sawLoc
  | _, _ => none

/-- The header-group loop of `Batch::scan` (`// spec` loop, lines 135-169):
from state `st` at position `pos`, consume accepted header markers — each
followed by a `scan_uuid` run — and whitespace, and return the position and
state at which the loop breaks. -/
def scanHeader (s : List Nat) (pos : Nat) (st : Scan) : Nat × Scan :=
  match h : sget s pos with
  | none => (pos, st)
  | some b =>
    match hdrStep st b with
    | some st2 => scanHeader s (pos + scan_uuid (s.drop (pos + 1)) + 1) st2
    | none => if isWs b then scanHeader s (pos + 1) st else (pos, st)
termination_by s.length - pos
decreasing_by
  all_goals
    have hlt := sget_lt h
    omega

theorem scanHeader_none {s : List Nat} {pos : Nat} {st : Scan}
    (h : sget s pos = none) : scanHeader s pos st = (pos, st) := by
  rw [scanHeader, h]

theorem scanHeader_step {s : List Nat} {pos : Nat} {st : Scan} {b : Nat}
    {st2 : Scan} (h : sget s pos = some b) (hstep : hdrStep st b = some st2) :
    scanHeader s pos st =
      scanHeader s (pos + scan_uuid (s.drop (pos + 1)) + 1) st2 := by
  rw [scanHeader, h]
  show (match hdrStep st b with
    | some st2 => scanHeader s (pos + scan_uuid (s.drop (pos + 1)) + 1) st2
    | none => if isWs b then scanHeader s (pos + 1) st else (pos, st)) = _
  rw [hstep]

theorem scanHeader_ws {s : List Nat} {pos : Nat} {st : Scan} {b : Nat}
    (h : sget s pos = some b) (hstep : hdrStep st b = none)
    (hw : isWs b = true) : scanHeader s pos st = scanHeader s (pos + 1) st := by
  rw [scanHeader, h]
  show (match hdrStep st b with
    | some st2 => scanHeader s (pos + scan_uuid (s.drop (pos + 1)) + 1) st2
    | none => if isWs b then scanHeader s (pos + 1) st else (pos, st)) = _
  rw [hstep, if_pos hw]

theorem scanHeader_brk {s : List Nat} {pos : Nat} {st : Scan} {b : Nat}
    (h : sget s pos = some b) (hstep : hdrStep st b = none)
    (hw : isWs b = false) : scanHeader s pos st = (pos, st) := by
  rw [scanHeader, h]
  show (match hdrStep st b with
    | some st2 => scanHeader s (pos + scan_uuid (s.drop (pos + 1)) + 1) st2
    | none => if isWs b then scanHeader s (pos + 1) st else (pos, st)) = _
  rw [hstep, if_neg (by simp [hw])]

theorem scanHeader_ge (s : List Nat) (pos : Nat) (st : Scan) :
    pos ≤ (scanHeader s pos st).1 := by
  refine scanHeader.induct s (fun pos st => pos ≤ (scanHeader s pos st).1)
    ?_ ?_ ?_ ?_ pos st
  · intro pos st h
    rw [scanHeader_none h]
  · intro pos st b h st2 hstep ih
    rw [scanHeader_step h hstep]
    omega
  · intro pos st b h hstep hw ih
    rw [scanHeader_ws h hstep hw]
    omega
  · intro pos st b h hstep hw
    rw [scanHeader_brk h hstep (by simpa using hw)]

theorem scanHeader_progress (s : List Nat) (pos : Nat) (st : Scan)
    (hne : (scanHeader s pos st).2 ≠ st) :
    pos < s.length ∧ pos + 1 ≤ (scanHeader s pos st).1 := by
  refine scanHeader.induct s
    (fun pos st => (scanHeader s pos st).2 ≠ st →
      pos < s.length ∧ pos + 1 ≤ (scanHeader s pos st).1)
    ?_ ?_ ?_ ?_ pos st hne
  · intro pos st h hne
    rw [scanHeader_none h] at hne
    exact absurd rfl hne
  · intro pos st b h st2 hstep ih hne
    rw [scanHeader_step h hstep]
    have := scanHeader_ge s (pos + scan_uuid (List.drop (pos + 1) s) + 1) st2
    exact ⟨sget_lt h, by omega⟩
  · intro pos st b h hstep hw ih hne
    rw [scanHeader_ws h hstep hw] at hne ⊢
    have := (ih hne).2
    exact ⟨sget_lt h, by omega⟩
  · intro pos st b h hstep hw hne
    rw [scanHeader_brk h hstep (by simpa using hw)] at hne
    exact absurd rfl hne

/-- Result of the atom loop of `Batch::scan` (lines 176-218): `found e`
models `return Some(start..pos+1)` with `e = pos + 1`, `notFound` models
`return None`, and `contAt p` models `break` back to the outer loop with
the cursor at `p`. -/
inductive AtomRes where
  | found (e : Nat)
  | notFound
  | contAt (p : Nat)
deriving DecidableEq

/-- Cursor advance for the four atom sigils `=` (61), `^` (94), `>` (62),
`'` (39), as in lines 179-190: the external literal scanner's length
(default 0) plus the sigil itself (plus the closing quote for strings). -/
def atomAdv (b : Nat) (rest : List Nat) : Option Nat :=
  if b = 61 then some ((scan_for_integer rest).getD 0 + 1)
  else if b = 94 then some ((scan_for_float rest).getD 0 + 1)
  else if b = 62 then some (scan_uuid rest + 1)
  else if b = 39 then some ((scan_for_string rest).getD 0 + 2)
  else none

theorem atomAdv_pos {b : Nat} {rest : List Nat} {k : Nat}
    (h : atomAdv b rest = some k) : 1 ≤ k := by
  unfold atomAdv at h
  split_ifs at h <;> simp_all <;> omega

/-- The atom loop of `Batch::scan` (lines 176-218): consume atoms and
whitespace from `pos`; a `?` (63) or `,` (44) breaks back to the outer
loop past itself, `!` (33) or `;` (59) ends the scan successfully, a
header marker breaks back to the outer loop at itself, and any other
printable character (or the end of text, or a multi-byte character) makes
the whole scan return not-found. -/
def scanAtoms (s : List Nat) (pos : Nat) : AtomRes :=
  match h : sget s pos with
  | none => .notFound
  | some b =>
    match h2 : atomAdv b (s.drop (pos + 1)) with
    | some k => scanAtoms s (pos + k)
    | none =>
      if b = 63 ∨ b = 44 then .contAt (pos + 1)
      else if b = 33 ∨ b = 59 then .found (pos + 1)
      else if b = 42 ∨ b = 35 ∨ b = 64 ∨ b = 58 then .contAt pos
      else if isWs b then scanAtoms s (pos + 1)
      else .notFound
termination_by s.length - pos
decreasing_by
  · have := sget_lt h
    have := atomAdv_pos h2
    omega
  · have := sget_lt h
    omega

theorem scanAtoms_none {s : List Nat} {pos : Nat}
    (h : sget s pos = none) : scanAtoms s pos = .notFound := by
  rw [scanAtoms, h]

theorem scanAtoms_adv {s : List Nat} {pos b k : Nat}
    (h : sget s pos = some b) (h2 : atomAdv b (s.drop (pos + 1)) = some k) :
    scanAtoms s pos = scanAtoms s (pos + k) := by
  rw [scanAtoms, h]
  show (match h2 : atomAdv b (s.drop (pos + 1)) with
    | some k => scanAtoms s (pos + k)
    | none =>
      if b = 63 ∨ b = 44 then .contAt (pos + 1)
      else if b = 33 ∨ b = 59 then .found (pos + 1)
      else if b = 42 ∨ b = 35 ∨ b = 64 ∨ b = 58 then .contAt pos
      else if isWs b then scanAtoms s (pos + 1)
      else .notFound) = _
  rw [h2]

theorem scanAtoms_noadv {s : List Nat} {pos b : Nat}
    (h : sget s pos = some b) (h2 : atomAdv b (s.drop (pos + 1)) = none) :
    scanAtoms s pos =
      (if b = 63 ∨ b = 44 then .contAt (pos + 1)
      else if b = 33 ∨ b = 59 then .found (pos + 1)
      else if b = 42 ∨ b = 35 ∨ b = 64 ∨ b = 58 then .contAt pos
      else if isWs b then scanAtoms s (pos + 1)
      else .notFound) := by
  rw [scanAtoms, h]
  show (match h2 : atomAdv b (s.drop (pos + 1)) with
    | some k => scanAtoms s (pos + k)
    | none =>
      if b = 63 ∨ b = 44 then .contAt (pos + 1)
      else if b = 33 ∨ b = 59 then .found (pos + 1)
      else if b = 42 ∨ b = 35 ∨ b = 64 ∨ b = 58 then .contAt pos
      else if isWs b then scanAtoms s (pos + 1)
      else .notFound) = _
  rw [h2]

theorem scanAtoms_sep {s : List Nat} {pos b : Nat}
    (h : sget s pos = some b) (hb : b = 63 ∨ b = 44) :
    scanAtoms s pos = .contAt (pos + 1) := by
  rcases hb with hb | hb <;> subst hb <;>
    rw [scanAtoms_noadv h (by simp [atomAdv])] <;> simp

theorem scanAtoms_term {s : List Nat} {pos b : Nat}
    (h : sget s pos = some b) (hb : b = 33 ∨ b = 59) :
    scanAtoms s pos = .found (pos + 1) := by
  rcases hb with hb | hb <;> subst hb <;>
    rw [scanAtoms_noadv h (by simp [atomAdv])] <;> simp

theorem scanAtoms_marker {s : List Nat} {pos b : Nat}
    (h : sget s pos = some b) (hb : b = 42 ∨ b = 35 ∨ b = 64 ∨ b = 58) :
    scanAtoms s pos = .contAt pos := by
  rcases hb with hb | hb | hb | hb <;> subst hb <;>
    rw [scanAtoms_noadv h (by simp [atomAdv])] <;> simp

theorem scanAtoms_ws {s : List Nat} {pos b : Nat}
    (h : sget s pos = some b) (hw : isWs b = true) :
    scanAtoms s pos = scanAtoms s (pos + 1) := by
  have hb : b = 9 ∨ b = 10 ∨ b = 11 ∨ b = 12 ∨ b = 13 ∨ b = 32 := by
    simp [isWs] at hw; omega
  rcases hb with hb | hb | hb | hb | hb | hb <;> subst hb <;>
    rw [scanAtoms_noadv h (by simp [atomAdv])] <;> simp [isWs]

theorem scanAtoms_other {s : List Nat} {pos b : Nat}
    (h : sget s pos = some b)
    (hb : b ≠ 61 ∧ b ≠ 94 ∧ b ≠ 62 ∧ b ≠ 39 ∧ b ≠ 63 ∧ b ≠ 44 ∧ b ≠ 33 ∧
      b ≠ 59 ∧ b ≠ 42 ∧ b ≠ 35 ∧ b ≠ 64 ∧ b ≠ 58)
    (hw : isWs b = false) : scanAtoms s pos = .notFound := by
  obtain ⟨h1, h2, h3, h4, h5, h6, h7, h8, h9, h10, h11, h12⟩ := hb
  rw [scanAtoms_noadv h (by simp [atomAdv, h1, h2, h3, h4])]
  simp [h5, h6, h7, h8, h9, h10, h11, h12, hw]


theorem atomAdv_none_ne {b : Nat} {rest : List Nat}
    (h : atomAdv b rest = none) : b ≠ 61 ∧ b ≠ 94 ∧ b ≠ 62 ∧ b ≠ 39 := by
  unfold atomAdv at h
  split_ifs at h <;> simp_all

theorem scanAtoms_found_facts {s : List Nat} {e : Nat} (pos : Nat)
    (hf : scanAtoms s pos = .found e) :
    pos + 1 ≤ e ∧ e ≤ s.length ∧
      ∃ q b2, e = q + 1 ∧ sget s q = some b2 ∧ (b2 = 33 ∨ b2 = 59) := by
  refine scanAtoms.induct s
    (fun pos => scanAtoms s pos = .found e → pos + 1 ≤ e ∧ e ≤ s.length ∧
      ∃ q b2, e = q + 1 ∧ sget s q = some b2 ∧ (b2 = 33 ∨ b2 = 59))
    ?_ ?_ ?_ ?_ ?_ ?_ ?_ pos hf
  · intro x h hx
    rw [scanAtoms_none h] at hx
    exact absurd hx (by simp)
  · intro x b h k hk ih hx
    rw [scanAtoms_adv h hk] at hx
    have hk1 := atomAdv_pos hk
    have := ih hx
    exact ⟨by omega, this.2⟩
  · intro x b h h2 hb hx
    rw [scanAtoms_sep h hb] at hx
    exact absurd hx (by simp)
  · intro x b h h2 hb1 hb hx
    rw [scanAtoms_term h hb] at hx
    have he : e = x + 1 := by
      cases hx
      rfl
    subst he
    exact ⟨le_refl _, by have := sget_lt h; omega, x, b, rfl, h, hb⟩
  · intro x b h h2 hb1 hb2 hb hx
    rw [scanAtoms_marker h hb] at hx
    exact absurd hx (by simp)
  · intro x b h h2 hb1 hb2 hb3 hw ih hx
    rw [scanAtoms_ws h hw] at hx
    have := ih hx
    exact ⟨by omega, this.2⟩
  · intro x b h h2 hb1 hb2 hb3 hw hx
    have hne := atomAdv_none_ne h2
    rw [scanAtoms_other h (by push_neg at hb1 hb2 hb3; tauto) (by simpa using hw)] at hx
    exact absurd hx (by simp)

theorem scanAtoms_contAt_facts {s : List Nat} {p : Nat} (pos : Nat)
    (hf : scanAtoms s pos = .contAt p) :
    pos ≤ p ∧ ∃ q b2, sget s q = some b2 ∧ (p = q + 1 ∨ p = q) := by
  refine scanAtoms.induct s
    (fun pos => scanAtoms s pos = .contAt p → pos ≤ p ∧
      ∃ q b2, sget s q = some b2 ∧ (p = q + 1 ∨ p = q))
    ?_ ?_ ?_ ?_ ?_ ?_ ?_ pos hf
  · intro x h hx
    rw [scanAtoms_none h] at hx
    exact absurd hx (by simp)
  · intro x b h k hk ih hx
    rw [scanAtoms_adv h hk] at hx
    have hk1 := atomAdv_pos hk
    have := ih hx
    exact ⟨by omega, this.2⟩
  · intro x b h h2 hb hx
    rw [scanAtoms_sep h hb] at hx
    have : p = x + 1 := by cases hx; rfl
    subst this
    exact ⟨by omega, x, b, h, Or.inl rfl⟩
  · intro x b h h2 hb1 hb hx
    rw [scanAtoms_term h hb] at hx
    exact absurd hx (by simp)
  · intro x b h h2 hb1 hb2 hb hx
    rw [scanAtoms_marker h hb] at hx
    have hpx : p = x := by cases hx; rfl
    exact ⟨by omega, x, b, h, Or.inr hpx⟩
  · intro x b h h2 hb1 hb2 hb3 hw ih hx
    rw [scanAtoms_ws h hw] at hx
    have := ih hx
    exact ⟨by omega, this.2⟩
  · intro x b h h2 hb1 hb2 hb3 hw hx
    have hne := atomAdv_none_ne h2
    rw [scanAtoms_other h (by push_neg at hb1 hb2 hb3; tauto) (by simpa using hw)] at hx
    exact absurd hx (by simp)

/-- The outer loop of `Batch::scan` (lines 130-219): remember `start = pos`,
run the header-group loop from state `Initial`; if it consumed no header
marker the scan returns none, otherwise run the atom loop, which either
ends the scan (successfully at a terminator or not-found), or breaks back
here to start a new header group. -/
def scanLoop (s : List Nat) (pos : Nat) : Option (Nat × Nat) :=
  if hst : (scanHeader s pos .initial).2 = .initial then none
  else
    match ha : scanAtoms s (scanHeader s pos .initial).1 with
    | .found e => some (pos, e)
    | .notFound => none
    | .contAt p => scanLoop s p
termination_by s.length - pos
decreasing_by
  have h1 := scanHeader_progress s pos .initial hst
  have h2 := (scanAtoms_contAt_facts _ ha).1
  omega

/-- `Batch::scan`: scan for the next frame from the beginning of `s`. -/
def Batch.scan (s : List Nat) : Option (Nat × Nat) := scanLoop s 0

theorem scanLoop_initial {s : List Nat} {pos : Nat}
    (hq : (scanHeader s pos .initial).2 = .initial) :
    scanLoop s pos = none := by
  rw [scanLoop, dif_pos hq]

theorem scanLoop_found {s : List Nat} {pos e : Nat}
    (hst : (scanHeader s pos .initial).2 ≠ .initial)
    (ha : scanAtoms s (scanHeader s pos .initial).1 = .found e) :
    scanLoop s pos = some (pos, e) := by
  rw [scanLoop, dif_neg hst, ha]

theorem scanLoop_notFound {s : List Nat} {pos : Nat}
    (hst : (scanHeader s pos .initial).2 ≠ .initial)
    (ha : scanAtoms s (scanHeader s pos .initial).1 = .notFound) :
    scanLoop s pos = none := by
  rw [scanLoop, dif_neg hst, ha]

theorem scanLoop_cont {s : List Nat} {pos p : Nat}
    (hst : (scanHeader s pos .initial).2 ≠ .initial)
    (ha : scanAtoms s (scanHeader s pos .initial).1 = .contAt p) :
    scanLoop s pos = scanLoop s p := by
  rw [scanLoop, dif_neg hst, ha]

/-- Fuel-based structural twin of `scanHeader`, used only to evaluate the
scanner on concrete inputs (well-founded definitions do not reduce in the
kernel).  `scanHeaderF_eq` proves it agrees with `scanHeader`. -/
def scanHeaderF : Nat → List Nat → Nat → Scan → Nat × Scan
  | 0, _, pos, st => (pos, st)
  | fuel + 1, s, pos, st =>
    match sget s pos with
    | none => (pos, st)
    | some b =>
      match hdrStep st b with
      | some st2 => scanHeaderF fuel s (pos + scan_uuid (s.drop (pos + 1)) + 1) st2
      | none => if isWs b then scanHeaderF fuel s (pos + 1) st else (pos, st)

/-- Fuel-based structural twin of `scanAtoms`; see `scanAtomsF_eq`. -/
def scanAtomsF : Nat → List Nat → Nat → AtomRes
  | 0, _, _ => .notFound
  | fuel + 1, s, pos =>
    match sget s pos with
    | none => .notFound
    | some b =>
      match atomAdv b (s.drop (pos + 1)) with
      | some k => scanAtomsF fuel s (pos + k)
      | none =>
        if b = 63 ∨ b = 44 then .contAt (pos + 1)
        else if b = 33 ∨ b = 59 then .found (pos + 1)
        else if b = 42 ∨ b = 35 ∨ b = 64 ∨ b = 58 then .contAt pos
        else if isWs b then scanAtomsF fuel s (pos + 1)
        else .notFound

/-- Fuel-based structural twin of `scanLoop`; see `scanLoopF_eq`. -/
def scanLoopF : Nat → List Nat → Nat → Option (Nat × Nat)
  | 0, _, _ => none
  | fuel + 1, s, pos =>
    if (scanHeaderF (s.length + 1) s pos .initial).2 = .initial then none
    else
      match scanAtomsF (s.length + 1) s (scanHeaderF (s.length + 1) s pos .initial).1 with
      | .found e => some (pos, e)
      | .notFound => none
      | .contAt p => scanLoopF fuel s p

theorem sget_none_of_ge {s : List Nat} {pos : Nat} (h : s.length ≤ pos) :
    sget s pos = none := by
  unfold sget
  rw [List.get?_eq_none.mpr h]

theorem scanHeaderF_eq (fuel : Nat) (s : List Nat) (pos : Nat) (st : Scan)
    (hf : s.length ≤ pos + fuel) : scanHeaderF fuel s pos st = scanHeader s pos st := by
  induction fuel generalizing pos st with
  | zero =>
    rw [scanHeaderF, scanHeader_none (sget_none_of_ge (by omega))]
  | succ fuel ih =>
    rw [scanHeaderF]
    cases hb : sget s pos with
    | none => rw [scanHeader_none hb]
    | some b =>
      have hlt := sget_lt hb
      show (match hdrStep st b with
        | some st2 => scanHeaderF fuel s (pos + scan_uuid (s.drop (pos + 1)) + 1) st2
        | none => if isWs b then scanHeaderF fuel s (pos + 1) st else (pos, st)) = _
      cases hstep : hdrStep st b with
      | some st2 =>
        rw [scanHeader_step hb hstep]
        exact ih (pos + scan_uuid (s.drop (pos + 1)) + 1) st2 (by omega)
      | none =>
        show (if isWs b then scanHeaderF fuel s (pos + 1) st else (pos, st)) = _
        cases hw : isWs b with
        | true =>
          rw [if_pos rfl, scanHeader_ws hb hstep hw]
          exact ih (pos + 1) st (by omega)
        | false =>
          rw [if_neg (by simp), scanHeader_brk hb hstep hw]

theorem scanAtomsF_eq (fuel : Nat) (s : List Nat) (pos : Nat)
    (hf : s.length ≤ pos + fuel) : scanAtomsF fuel s pos = scanAtoms s pos := by
  induction fuel generalizing pos with
  | zero =>
    rw [scanAtomsF, scanAtoms_none (sget_none_of_ge (by omega))]
  | succ fuel ih =>
    rw [scanAtomsF]
    cases hb : sget s pos with
    | none => rw [scanAtoms_none hb]
    | some b =>
      have hlt := sget_lt hb
      show (match atomAdv b (s.drop (pos + 1)) with
        | some k => scanAtomsF fuel s (pos + k)
        | none =>
          if b = 63 ∨ b = 44 then AtomRes.contAt (pos + 1)
          else if b = 33 ∨ b = 59 then AtomRes.found (pos + 1)
          else if b = 42 ∨ b = 35 ∨ b = 64 ∨ b = 58 then AtomRes.contAt pos
          else if isWs b then scanAtomsF fuel s (pos + 1)
          else AtomRes.notFound) = _
      cases hadv : atomAdv b (s.drop (pos + 1)) with
      | some k =>
        have hk := atomAdv_pos hadv
        rw [scanAtoms_adv hb hadv]
        exact ih (pos + k) (by omega)
      | none =>
        rw [scanAtoms_noadv hb hadv]
        show (if b = 63 ∨ b = 44 then AtomRes.contAt (pos + 1)
          else if b = 33 ∨ b = 59 then AtomRes.found (pos + 1)
          else if b = 42 ∨ b = 35 ∨ b = 64 ∨ b = 58 then AtomRes.contAt pos
          else if isWs b then scanAtomsF fuel s (pos + 1)
          else AtomRes.notFound) = _
        split_ifs with h1 h2 h3 h4 <;> try rfl
        exact ih (pos + 1) (by omega)

theorem scanLoopF_eq (fuel : Nat) (s : List Nat) (pos : Nat)
    (hf : s.length ≤ pos + fuel) : scanLoopF fuel s pos = scanLoop s pos := by
  induction fuel generalizing pos with
  | zero =>
    have hq : scanHeader s pos .initial = (pos, .initial) :=
      scanHeader_none (sget_none_of_ge (by omega))
    rw [scanLoopF, scanLoop_initial (by rw [hq])]
  | succ fuel ih =>
    rw [scanLoopF]
    rw [scanHeaderF_eq (s.length + 1) s pos .initial (by omega)]
    by_cases hst : (scanHeader s pos .initial).2 = .initial
    · rw [if_pos hst, scanLoop_initial hst]
    · rw [if_neg hst]
      rw [scanAtomsF_eq (s.length + 1) s (scanHeader s pos .initial).1 (by omega)]
      cases ha : scanAtoms s (scanHeader s pos .initial).1 with
      | found e => rw [scanLoop_found hst ha]
      | notFound => rw [scanLoop_notFound hst ha]
      | contAt p =>
        have hp := scanAtoms_contAt_facts _ ha
        have hprog := scanHeader_progress s pos .initial hst
        have hge := scanHeader_ge s pos .initial
        rw [scanLoop_cont hst ha]
        exact ih p (by omega)

theorem scan_eval (s : List Nat) : Batch.scan s = scanLoopF (s.length + 1) s 0 := by
  rw [Batch.scan, scanLoopF_eq _ _ _ (by omega)]



theorem hdrStep_marker {st : Scan} {b : Nat} {st2 : Scan}
    (h : hdrStep st b = some st2) : b = 42 ∨ b = 35 ∨ b = 64 ∨ b = 58 := by
  unfold hdrStep at h
  split at h <;> simp_all

/-- From state `Initial`, a header-group phase that accepted some marker
consists of a (possibly empty) whitespace run followed by a header marker:
byte 42 `*`, 35 `#`, 64 `@` or 58 `:`. -/
theorem scanHeader_initial_marker (s : List Nat) (pos : Nat)
    (h : (scanHeader s pos .initial).2 ≠ .initial) :
    ∃ w, (∀ i, i < w → ∃ c, sget s (pos + i) = some c ∧ isWs c = true) ∧
      ∃ m, sget s (pos + w) = some m ∧ (m = 42 ∨ m = 35 ∨ m = 64 ∨ m = 58) := by
  refine scanHeader.induct s
    (fun pos st => st = .initial → (scanHeader s pos st).2 ≠ st →
      ∃ w, (∀ i, i < w → ∃ c, sget s (pos + i) = some c ∧ isWs c = true) ∧
        ∃ m, sget s (pos + w) = some m ∧ (m = 42 ∨ m = 35 ∨ m = 64 ∨ m = 58))
    ?_ ?_ ?_ ?_ pos .initial rfl h
  · intro pos st hb hini hne
    rw [scanHeader_none hb] at hne
    exact absurd rfl hne
  · intro pos st b hb st2 hstep ih hini hne
    subst hini
    refine ⟨0, by omega, b, ?_, hdrStep_marker hstep⟩
    simpa using hb
  · intro pos st b hb hstep hw ih hini hne
    subst hini
    rw [scanHeader_ws hb hstep hw] at hne
    obtain ⟨w, hws, m, hm, hmk⟩ := ih rfl hne
    refine ⟨w + 1, ?_, m, ?_, hmk⟩
    · intro i hi
      cases i with
      | zero => exact ⟨b, by simpa using hb, hw⟩
      | succ j =>
        obtain ⟨c, hc1, hc2⟩ := hws j (by omega)
        exact ⟨c, by rw [show pos + (j + 1) = pos + 1 + j by omega]; exact hc1, hc2⟩
    · rw [show pos + (w + 1) = pos + 1 + w by omega]
      exact hm
  · intro pos st b hb hstep hw hini hne
    rw [scanHeader_brk hb hstep (by simpa using hw)] at hne
    exact absurd rfl hne

/-- Top-level facts about a successful scan: the range is well-formed and
within bounds, it ends at and includes a terminator `!` (33) or `;` (59),
and its start is where the scan's last header-group phase began. -/
theorem scanLoop_some_facts {s : List Nat} {a e : Nat} (pos : Nat)
    (h : scanLoop s pos = some (a, e)) :
    pos ≤ a ∧ a < e ∧ e ≤ s.length ∧
      (∃ t, sget s (e - 1) = some t ∧ (t = 33 ∨ t = 59)) ∧
      (scanHeader s a .initial).2 ≠ .initial := by
  refine scanLoop.induct s
    (fun pos => scanLoop s pos = some (a, e) → pos ≤ a ∧ a < e ∧ e ≤ s.length ∧
      (∃ t, sget s (e - 1) = some t ∧ (t = 33 ∨ t = 59)) ∧
      (scanHeader s a .initial).2 ≠ .initial)
    ?_ ?_ ?_ ?_ pos h
  · intro x hst hx
    rw [scanLoop_initial hst] at hx
    exact absurd hx (by simp)
  · intro x hst e2 ha hx
    rw [scanLoop_found hst ha] at hx
    have hae : a = x ∧ e = e2 := by
      constructor <;> cases hx <;> rfl
    obtain ⟨ha1, he1⟩ := hae
    subst ha1
    subst he1
    have hgen := scanHeader_ge s a .initial
    obtain ⟨h1, h2, q, b2, he, hq, hter⟩ := scanAtoms_found_facts _ ha
    refine ⟨le_refl _, by omega, h2, ⟨b2, ?_, hter⟩, hst⟩
    rw [show e - 1 = q by omega]
    exact hq
  · intro x hst ha hx
    rw [scanLoop_notFound hst ha] at hx
    exact absurd hx (by simp)
  · intro x hst p ha ih hx
    rw [scanLoop_cont hst ha] at hx
    have hfacts := ih hx
    have hcont := scanAtoms_contAt_facts _ ha
    have hgen := scanHeader_ge s x .initial
    exact ⟨by omega, hfacts.2⟩

theorem scan_some_facts {s : List Nat} {a e : Nat}
    (h : Batch.scan s = some (a, e)) :
    a < e ∧ e ≤ s.length ∧
      (∃ t, sget s (e - 1) = some t ∧ (t = 33 ∨ t = 59)) ∧
      (scanHeader s a .initial).2 ≠ .initial := by
  have := scanLoop_some_facts 0 h
  exact ⟨this.2.1, this.2.2⟩

/-- The `Batch` struct: the remaining text buffer plus the optional pending
span of the next frame.  The borrowed/owned (`Cow`) distinction of the
source is immaterial here: re-slicing a borrowed buffer and
`replace_range(0..start, "")` on an owned buffer both leave exactly the
bytes from `start` on, modelled by `List.drop`. -/
structure Batch where
  body : List Nat
  next : Option (Nat × Nat)
deriving DecidableEq

/-- `Batch::parse` (lines 21-36): scan once from the start; if the found
span starts at offset 0, scan again after that first frame and keep the
shifted second location; otherwise keep the first location. -/
def Batch.parse (s : List Nat) : Batch :=
  let n := Batch.scan s
  let n2 := match n with
    | some rgn =>
      if rgn.1 = 0 then
        (Batch.scan (s.drop rgn.2)).map (fun x => (x.1 + rgn.2, x.2 + rgn.2))
      else n
    | none => n
  ⟨s, n2⟩

/-- `<Batch as Iterator>::next` (lines 254-294).  The yielded item models
`Frame::parse(&s[..end])` by its raw text (`Frame` is external to this
repository; per the spec it records the raw text handed to it).  Returns
the yielded item (none at end of iteration) together with the updated
state. -/
def Batch.nextFrame (b : Batch) : Option (List Nat) × Batch :=
  if b.body = [] ∨ b.body.head? = some 46 then (none, b)
  else
    match b.next with
    | some rgn =>
      (some (b.body.take rgn.1),
        ⟨b.body.drop rgn.1,
          (Batch.scan (b.body.drop rgn.2)).map
            (fun x => (x.1 + (rgn.2 - rgn.1), x.2 + (rgn.2 - rgn.1)))⟩)
    | none => (some (b.body.take b.body.length), ⟨[], none⟩)

/-- Iterate `next` `n` times, keeping only the state. -/
def Batch.iterB : Batch → Nat → Batch
  | b, 0 => b
  | b, n + 1 => Batch.iterB (Batch.nextFrame b).2 n

/-- The list of frames yielded by iterating `next`, with enough fuel to
exhaust any batch that satisfies the scanner invariant. -/
def Batch.framesAux : Nat → Batch → List (List Nat)
  | 0, _ => []
  | fuel + 1, b =>
    match Batch.nextFrame b with
    | (none, _) => []
    | (some f, b2) => f :: Batch.framesAux fuel b2

def Batch.frames (b : Batch) : List (List Nat) :=
  Batch.framesAux (b.body.length + 1) b

/-- The strengthened pending-span invariant: a pending span has positive
start, is nonempty and ends within the buffer. -/
def Batch.InvS (b : Batch) : Prop :=
  ∀ r, b.next = some r → 1 ≤ r.1 ∧ r.1 < r.2 ∧ r.2 ≤ b.body.length

theorem parse_InvS (s : List Nat) : Batch.InvS (Batch.parse s) := by
  intro r hr
  unfold Batch.parse at hr
  simp only at hr
  cases h1 : Batch.scan s with
  | none =>
    rw [h1] at hr
    have hr2 : (none : Option (Nat × Nat)) = some r := hr
    exact absurd hr2 (by simp)
  | some rgn =>
    rw [h1] at hr
    have hr2 : (if rgn.1 = 0 then
        (Batch.scan (s.drop rgn.2)).map (fun x => (x.1 + rgn.2, x.2 + rgn.2))
      else some rgn) = some r := hr
    obtain ⟨ha1, ha2, -⟩ := scan_some_facts (show Batch.scan s = some (rgn.1, rgn.2) by rw [h1])
    by_cases h0 : rgn.1 = 0
    · rw [if_pos h0] at hr2
      cases h2 : Batch.scan (s.drop rgn.2) with
      | none => rw [h2] at hr2; exact absurd hr2 (by simp)
      | some x =>
        rw [h2] at hr2
        obtain ⟨hb1, hb2, -⟩ := scan_some_facts
          (show Batch.scan (s.drop rgn.2) = some (x.1, x.2) by rw [h2])
        simp only [Option.map_some'] at hr2
        have hrr := Option.some.inj hr2
        subst hrr
        have hd : (s.drop rgn.2).length = s.length - rgn.2 := by simp
        show 1 ≤ x.1 + rgn.2 ∧ x.1 + rgn.2 < x.2 + rgn.2 ∧ x.2 + rgn.2 ≤ s.length
        omega
    · rw [if_neg h0] at hr2
      have hrr := Option.some.inj hr2
      subst hrr
      show 1 ≤ rgn.1 ∧ rgn.1 < rgn.2 ∧ rgn.2 ≤ s.length
      omega

theorem nextFrame_InvS {b : Batch} (h : Batch.InvS b) :
    Batch.InvS (Batch.nextFrame b).2 := by
  unfold Batch.nextFrame
  by_cases ht : b.body = [] ∨ b.body.head? = some 46
  · rw [if_pos ht]
    exact h
  · rw [if_neg ht]
    cases hn : b.next with
    | none =>
      intro r hr
      have hr2 : (none : Option (Nat × Nat)) = some r := hr
      exact absurd hr2 (by simp)
    | some rgn =>
      intro r hr
      obtain ⟨h1, h2, h3⟩ := h rgn hn
      have hr2 : (Batch.scan (b.body.drop rgn.2)).map
          (fun x => (x.1 + (rgn.2 - rgn.1), x.2 + (rgn.2 - rgn.1))) = some r := hr
      cases h4 : Batch.scan (b.body.drop rgn.2) with
      | none => rw [h4] at hr2; exact absurd hr2 (by simp)
      | some x =>
        rw [h4] at hr2
        obtain ⟨hb1, hb2, -⟩ := scan_some_facts
          (show Batch.scan (b.body.drop rgn.2) = some (x.1, x.2) by rw [h4])
        simp only [Option.map_some'] at hr2
        have hrr := Option.some.inj hr2
        subst hrr
        have hd : (b.body.drop rgn.2).length = b.body.length - rgn.2 := by simp
        show 1 ≤ x.1 + (rgn.2 - rgn.1) ∧ x.1 + (rgn.2 - rgn.1) < x.2 + (rgn.2 - rgn.1) ∧
          x.2 + (rgn.2 - rgn.1) ≤ (b.body.drop rgn.1).length
        simp only [List.length_drop]
        omega

theorem nextFrame_none_iff (b : Batch) :
    (Batch.nextFrame b).1 = none ↔ (b.body = [] ∨ b.body.head? = some 46) := by
  unfold Batch.nextFrame
  by_cases ht : b.body = [] ∨ b.body.head? = some 46
  · rw [if_pos ht]
    simpa using ht
  · rw [if_neg ht]
    cases hn : b.next with
    | none => simpa using ht
    | some rgn => simpa using ht

theorem nextFrame_none_state {b : Batch} (h : (Batch.nextFrame b).1 = none) :
    (Batch.nextFrame b).2 = b := by
  have ht := (nextFrame_none_iff b).mp h
  unfold Batch.nextFrame
  rw [if_pos ht]

theorem iterB_of_none {b : Batch} (h : (Batch.nextFrame b).1 = none) :
    ∀ n, Batch.iterB b n = b := by
  intro n
  induction n with
  | zero => rfl
  | succ n ih =>
    show Batch.iterB (Batch.nextFrame b).2 n = b
    rw [nextFrame_none_state h]
    exact ih

theorem iterB_add (b : Batch) (m n : Nat) :
    Batch.iterB b (m + n) = Batch.iterB (Batch.iterB b m) n := by
  induction m generalizing b with
  | zero => rw [Nat.zero_add]; rfl
  | succ m ih =>
    rw [Nat.succ_add]
    show Batch.iterB (Batch.nextFrame b).2 (m + n) = _
    rw [ih]
    rfl

theorem none_persists {b : Batch} {k : Nat}
    (h : (Batch.nextFrame (Batch.iterB b k)).1 = none) :
    ∀ j, (Batch.nextFrame (Batch.iterB b (k + j))).1 = none := by
  intro j
  rw [iterB_add, iterB_of_none h]
  exact h

theorem nextFrame_exhaust {b : Batch} (h : Batch.InvS b) :
    (Batch.nextFrame (Batch.iterB b (b.body.length + 1))).1 = none := by
  generalize hlen : b.body.length = len
  induction len using Nat.strong_induction_on generalizing b with
  | _ len ih =>
    by_cases ht : b.body = [] ∨ b.body.head? = some 46
    · have hn : (Batch.nextFrame b).1 = none := (nextFrame_none_iff b).mpr ht
      rw [iterB_of_none hn]
      exact hn
    · cases hn : b.next with
      | none =>
        have hb1 : (Batch.nextFrame b).2 = ⟨[], none⟩ := by
          unfold Batch.nextFrame
          rw [if_neg ht, hn]
        show (Batch.nextFrame (Batch.iterB (Batch.nextFrame b).2 len)).1 = none
        rw [hb1]
        have hterm : (Batch.nextFrame (⟨[], none⟩ : Batch)).1 = none :=
          (nextFrame_none_iff _).mpr (Or.inl rfl)
        rw [iterB_of_none hterm]
        exact hterm
      | some rgn =>
        obtain ⟨h1, h2, h3⟩ := h rgn hn
        have hbody : (Batch.nextFrame b).2.body = b.body.drop rgn.1 := by
          unfold Batch.nextFrame
          rw [if_neg ht, hn]
        have hlen1 : (Batch.nextFrame b).2.body.length = len - rgn.1 := by
          rw [hbody]
          simp [hlen]
        have hinv1 : Batch.InvS (Batch.nextFrame b).2 := nextFrame_InvS h
        have hlt : len - rgn.1 < len := by omega
        have ihr := ih (len - rgn.1) hlt hinv1 hlen1
        show (Batch.nextFrame (Batch.iterB (Batch.nextFrame b).2 len)).1 = none
        have hsplit : len = (len - rgn.1 + 1) + (len - (len - rgn.1 + 1)) := by omega
        rw [hsplit]
        exact none_persists ihr _

/-- Modelled from the spec: the header of a frame's first operation, as
exposed by the external `Frame::peek` (`Op { ty, object, .. }` — only the
type and object identifiers are consumed by `Batch::index`).  Identifiers
(`UUID`) are opaque comparable tokens, modelled as naturals. -/
structure Op where
  ty : Nat
  object : Nat
deriving DecidableEq

/-- One index entry: object identifier, its recorded type identifier, and
the frames recorded for it in first-seen order.  The source's `HashMap` is
modelled as an association list with unique keys. -/
abbrev Entry := Nat × Nat × List (List Nat)

/-- Processing one headered frame against the index, as in lines 47-61:
look up the object's entry (inserting `(ty, [])` on first sight), then
push the frame if the recorded type matches, else fail. -/
def indexStep (o t : Nat) (f : List Nat) : List Entry → Option (List Entry)
  | [] => some [(o, t, [f])]
  | e :: rest =>
    if e.1 = o then
      if e.2.1 = t then some ((e.1, e.2.1, e.2.2 ++ [f]) :: rest) else none
    else (indexStep o t f rest).map (fun acc => e :: acc)

/-- The indexing loop of `Batch::index` (lines 40-67) over an explicit
frame list, parameterized by the external `Frame::peek`: frames with no
parseable first header are skipped; a type mismatch aborts with none. -/
def indexList (peek : List Nat → Option Op) :
    List (List Nat) → List Entry → Option (List Entry)
  | [], acc => some acc
  | f :: rest, acc =>
    match peek f with
    | some op =>
      match indexStep op.object op.ty f acc with
      | some acc2 => indexList peek rest acc2
      | none => none
    | none => indexList peek rest acc

/-- `Batch::index`: drain the iterator and fold the frames into the index. -/
def Batch.index (peek : List Nat → Option Op) (b : Batch) : Option (List Entry) :=
  indexList peek (Batch.frames b) []

/-- The recorded type for object `o`: the type field of the first entry
with key `o`. -/
def findTy (o : Nat) : List Entry → Option Nat
  | [] => none
  | e :: rest => if e.1 = o then some e.2.1 else findTy o rest

/-- Two frames in `L` whose first headers name the same object but
different types. -/
def Conflict (peek : List Nat → Option Op) (L : List (List Nat)) : Prop :=
  ∃ f ∈ L, ∃ g ∈ L, ∃ o t u,
    peek f = some ⟨t, o⟩ ∧ peek g = some ⟨u, o⟩ ∧ t ≠ u

theorem findTy_mem {o : Nat} {acc : List Entry} {u : Nat}
    (h : findTy o acc = some u) : ∃ en ∈ acc, en.1 = o ∧ en.2.1 = u := by
  induction acc with
  | nil => exact absurd h (by simp [findTy])
  | cons e rest ih =>
    unfold findTy at h
    by_cases he : e.1 = o
    · rw [if_pos he] at h
      exact ⟨e, by simp, he, by simpa using h⟩
    · rw [if_neg he] at h
      obtain ⟨en, h1, h2⟩ := ih h
      exact ⟨en, by simp [h1], h2⟩

theorem indexStep_none_iff {o t : Nat} {f : List Nat} {acc : List Entry} :
    indexStep o t f acc = none ↔ ∃ u, findTy o acc = some u ∧ u ≠ t := by
  induction acc with
  | nil => simp [indexStep, findTy]
  | cons e rest ih =>
    unfold indexStep findTy
    by_cases he : e.1 = o
    · rw [if_pos he, if_pos he]
      by_cases hty : e.2.1 = t
      · rw [if_pos hty]
        simp [hty]
      · rw [if_neg hty]
        simp [hty]
    · rw [if_neg he, if_neg he]
      cases hs : indexStep o t f rest with
      | none => simpa using ih.mp hs
      | some acc2 =>
        have : ¬∃ u, findTy o rest = some u ∧ u ≠ t := by
          rw [← ih]
          simp [hs]
        simpa using this

theorem indexStep_findTy_mono {o t : Nat} {f : List Nat} {acc acc2 : List Entry}
    (h : indexStep o t f acc = some acc2) {q u : Nat}
    (hq : findTy q acc = some u) : findTy q acc2 = some u := by
  induction acc generalizing acc2 with
  | nil => exact absurd hq (by simp [findTy])
  | cons e rest ih =>
    unfold indexStep at h
    unfold findTy at hq
    by_cases he : e.1 = o
    · rw [if_pos he] at h
      by_cases hty : e.2.1 = t
      · rw [if_pos hty] at h
        have hacc2 := (Option.some.inj h).symm
        subst hacc2
        unfold findTy
        by_cases hq2 : e.1 = q
        · rw [if_pos hq2] at hq ⊢
          exact hq
        · rw [if_neg hq2] at hq ⊢
          exact hq
      · rw [if_neg hty] at h
        exact absurd h (by simp)
    · rw [if_neg he] at h
      cases hs : indexStep o t f rest with
      | none => rw [hs] at h; exact absurd h (by simp)
      | some acc3 =>
        rw [hs] at h
        simp only [Option.map_some'] at h
        have hacc2 := (Option.some.inj h).symm
        subst hacc2
        unfold findTy
        by_cases hq2 : e.1 = q
        · rw [if_pos hq2] at hq ⊢
          exact hq
        · rw [if_neg hq2] at hq ⊢
          exact ih hs hq

theorem indexStep_findTy_set {o t : Nat} {f : List Nat} {acc acc2 : List Entry}
    (h : indexStep o t f acc = some acc2) : findTy o acc2 = some t := by
  induction acc generalizing acc2 with
  | nil =>
    have hacc2 := (Option.some.inj h).symm
    subst hacc2
    simp [findTy]
  | cons e rest ih =>
    unfold indexStep at h
    by_cases he : e.1 = o
    · rw [if_pos he] at h
      by_cases hty : e.2.1 = t
      · rw [if_pos hty] at h
        have hacc2 := (Option.some.inj h).symm
        subst hacc2
        unfold findTy
        rw [if_pos he]
        simp [hty]
      · rw [if_neg hty] at h
        exact absurd h (by simp)
    · rw [if_neg he] at h
      cases hs : indexStep o t f rest with
      | none => rw [hs] at h; exact absurd h (by simp)
      | some acc3 =>
        rw [hs] at h
        simp only [Option.map_some'] at h
        have hacc2 := (Option.some.inj h).symm
        subst hacc2
        unfold findTy
        rw [if_neg he]
        exact ih hs

theorem indexStep_entries {o t : Nat} {f : List Nat} {acc acc2 : List Entry}
    (h : indexStep o t f acc = some acc2) :
    ∀ en ∈ acc2, (∃ en2 ∈ acc, en2.1 = en.1 ∧ en2.2.1 = en.2.1) ∨
      (en.1 = o ∧ en.2.1 = t) := by
  induction acc generalizing acc2 with
  | nil =>
    have hacc2 := (Option.some.inj h).symm
    subst hacc2
    intro en hen
    simp at hen
    subst hen
    exact Or.inr ⟨rfl, rfl⟩
  | cons e rest ih =>
    unfold indexStep at h
    by_cases he : e.1 = o
    · rw [if_pos he] at h
      by_cases hty : e.2.1 = t
      · rw [if_pos hty] at h
        have hacc2 := (Option.some.inj h).symm
        subst hacc2
        intro en hen
        rcases List.mem_cons.mp hen with hen | hen
        · subst hen
          exact Or.inl ⟨e, by simp, rfl, rfl⟩
        · exact Or.inl ⟨en, by simp [hen], rfl, rfl⟩
      · rw [if_neg hty] at h
        exact absurd h (by simp)
    · rw [if_neg he] at h
      cases hs : indexStep o t f rest with
      | none => rw [hs] at h; exact absurd h (by simp)
      | some acc3 =>
        rw [hs] at h
        simp only [Option.map_some'] at h
        have hacc2 := (Option.some.inj h).symm
        subst hacc2
        intro en hen
        rcases List.mem_cons.mp hen with hen | hen
        · subst hen
          exact Or.inl ⟨en, by simp, rfl, rfl⟩
        · rcases ih hs en hen with ⟨en2, h1, h2⟩ | hr
          · exact Or.inl ⟨en2, by simp [h1], h2⟩
          · exact Or.inr hr

theorem indexList_skip {peek : List Nat → Option Op} {f : List Nat}
    {rest : List (List Nat)} {acc : List Entry} (hp : peek f = none) :
    indexList peek (f :: rest) acc = indexList peek rest acc := by
  simp only [indexList, hp]

theorem indexList_cons_some {peek : List Nat → Option Op} {f : List Nat}
    {rest : List (List Nat)} {acc acc2 : List Entry} {op : Op}
    (hp : peek f = some op) (hs : indexStep op.object op.ty f acc = some acc2) :
    indexList peek (f :: rest) acc = indexList peek rest acc2 := by
  simp only [indexList, hp, hs]

theorem indexList_cons_fail {peek : List Nat → Option Op} {f : List Nat}
    {rest : List (List Nat)} {acc : List Entry} {op : Op}
    (hp : peek f = some op) (hs : indexStep op.object op.ty f acc = none) :
    indexList peek (f :: rest) acc = none := by
  simp only [indexList, hp, hs]

theorem indexList_findTy_mono {peek : List Nat → Option Op}
    {fs : List (List Nat)} {acc r : List Entry}
    (h : indexList peek fs acc = some r) {q u : Nat}
    (hq : findTy q acc = some u) : findTy q r = some u := by
  induction fs generalizing acc with
  | nil =>
    have hr := Option.some.inj h
    subst hr
    exact hq
  | cons f rest ih =>
    cases hp : peek f with
    | none =>
      rw [indexList_skip hp] at h
      exact ih h hq
    | some op =>
      cases hs : indexStep op.object op.ty f acc with
      | none => rw [indexList_cons_fail hp hs] at h; exact absurd h (by simp)
      | some acc2 =>
        rw [indexList_cons_some hp hs] at h
        exact ih h (indexStep_findTy_mono hs hq)

/-- On success, every headered frame's object is recorded in the result
with exactly that frame's type. -/
theorem indexList_some_findTy {peek : List Nat → Option Op}
    {fs : List (List Nat)} {acc r : List Entry}
    (h : indexList peek fs acc = some r) :
    ∀ f ∈ fs, ∀ op, peek f = some op → findTy op.object r = some op.ty := by
  induction fs generalizing acc with
  | nil => intro f hf; exact absurd hf (by simp)
  | cons f2 rest ih =>
    intro f hf op hop
    rcases List.mem_cons.mp hf with hf | hf
    · subst hf
      cases hp : peek f with
      | none => rw [hop] at hp; exact absurd hp (by simp)
      | some op2 =>
        rw [hop] at hp
        have hop2 := Option.some.inj hp
        subst hop2
        cases hs : indexStep op.object op.ty f acc with
        | none => rw [indexList_cons_fail hop hs] at h; exact absurd h (by simp)
        | some acc2 =>
          rw [indexList_cons_some hop hs] at h
          exact indexList_findTy_mono h (indexStep_findTy_set hs)
    · cases hp : peek f2 with
      | none =>
        rw [indexList_skip hp] at h
        exact ih h f hf op hop
      | some op2 =>
        cases hs : indexStep op2.object op2.ty f2 acc with
        | none => rw [indexList_cons_fail hp hs] at h; exact absurd h (by simp)
        | some acc2 =>
          rw [indexList_cons_some hp hs] at h
          exact ih h f hf op hop

/-- Every entry of the accumulator is witnessed by an already-seen frame
with that object and recorded type. -/
def Wit (peek : List Nat → Option Op) (F : List (List Nat))
    (acc : List Entry) : Prop :=
  ∀ en ∈ acc, ∃ g ∈ F, peek g = some ⟨en.2.1, en.1⟩

theorem indexStep_Wit {peek : List Nat → Option Op} {F : List (List Nat)}
    {acc acc2 : List Entry} {f : List Nat} {op : Op}
    (hw : Wit peek F acc) (hp : peek f = some op)
    (hs : indexStep op.object op.ty f acc = some acc2) :
    Wit peek (F ++ [f]) acc2 := by
  intro en hen
  rcases indexStep_entries hs en hen with ⟨en2, h1, h2, h3⟩ | ⟨h1, h2⟩
  · obtain ⟨g, hg1, hg2⟩ := hw en2 h1
    exact ⟨g, by simp [hg1], by rw [hg2, h2, h3]⟩
  · refine ⟨f, by simp, ?_⟩
    rw [hp, h1, h2]

theorem indexList_none_conflict {peek : List Nat → Option Op} :
    ∀ (fs F : List (List Nat)) (acc : List Entry), Wit peek F acc →
      indexList peek fs acc = none → Conflict peek (F ++ fs) := by
  intro fs
  induction fs with
  | nil =>
    intro F acc hw h
    exact absurd h (by simp [indexList])
  | cons f rest ih =>
    intro F acc hw h
    cases hp : peek f with
    | none =>
      rw [indexList_skip hp] at h
      have := ih (F ++ [f]) acc (fun en hen => by
        obtain ⟨g, hg1, hg2⟩ := hw en hen
        exact ⟨g, by simp [hg1], hg2⟩) h
      simpa using this
    | some op =>
      cases hs : indexStep op.object op.ty f acc with
      | none =>
        obtain ⟨u, hu, hne⟩ := indexStep_none_iff.mp hs
        obtain ⟨en, hen, he1, he2⟩ := findTy_mem hu
        obtain ⟨g, hg1, hg2⟩ := hw en hen
        refine ⟨g, by simp [hg1], f, by simp, en.1, en.2.1, op.ty, hg2, ?_, ?_⟩
        · rw [hp, he1]
        · rw [he2]
          exact hne
      | some acc2 =>
        rw [indexList_cons_some hp hs] at h
        have := ih (F ++ [f]) acc2 (indexStep_Wit hw hp hs) h
        simpa using this

theorem indexList_some_no_conflict {peek : List Nat → Option Op}
    {fs : List (List Nat)} {r : List Entry}
    (h : indexList peek fs [] = some r) : ¬ Conflict peek fs := by
  rintro ⟨f, hf, g, hg, o, t, u, pf, pg, hne⟩
  have h1 := indexList_some_findTy h f hf ⟨t, o⟩ pf
  have h2 := indexList_some_findTy h g hg ⟨u, o⟩ pg
  rw [h1] at h2
  exact hne (Option.some.inj h2)

theorem indexList_all_skip {peek : List Nat → Option Op}
    {fs : List (List Nat)} {acc : List Entry}
    (h : ∀ f ∈ fs, peek f = none) : indexList peek fs acc = some acc := by
  induction fs with
  | nil => rfl
  | cons f rest ih =>
    rw [indexList_skip (h f (by simp))]
    exact ih fun g hg => h g (by simp [hg])

theorem scan_nil : Batch.scan ([] : List Nat) = none := by
  rw [scan_eval]
  decide

theorem parse_nil : Batch.parse [] = ⟨[], none⟩ := by
  unfold Batch.parse
  rw [scan_nil]

theorem frames_nil : Batch.frames (Batch.parse []) = [] := by
  rw [parse_nil]
  rfl

/-- The per-object body of the loop in `Batch::reduce_all` (lines 84-113),
parameterized by the external reducers `LWW::reduce` and `Set::reduce` and
by the reserved type identifiers parsed from "lww" and "set".  Returns the
bytes written for this object and whether the unsupported-type warning was
recorded.  A reducer returning none writes nothing (line 110). -/
def reduceObj (lwwR setR : List Nat → List (List Nat) → Option (List Nat))
    (lww set : Nat) (ty : Nat) (frames : List (List Nat)) :
    List Nat × Bool :=
  match frames with
  | [] => ([], false)
  | [f] => (f, false)
  | _ :: _ :: _ =>
    let s := frames.getLastD []
    let hist := frames.dropLast
    if ty = lww then ((lwwR s hist).getD [], false)
    else if ty = set then ((setR s hist).getD [], false)
    else (s ++ hist.flatten, true)

/-- `Batch::reduce_all` over an already-built index: process the entries in
order, concatenating the bytes written and recording whether any warning
was issued.  (Sink writes are modelled as infallible appends; the map
iteration order is the entry-list order.) -/
def Batch.reduce_all (lwwR setR : List Nat → List (List Nat) → Option (List Nat))
    (lww set : Nat) : List Entry → List Nat × Bool
  | [] => ([], false)
  | (_, ty, frames) :: rest =>
    let r := reduceObj lwwR setR lww set ty frames
    let rr := Batch.reduce_all lwwR setR lww set rest
    (r.1 ++ rr.1, r.2 || rr.2)

/-- No continuation byte (128-191) directly follows an ASCII byte: a
consequence of UTF-8 validity, and all this development needs of it. -/
def noStray : List Nat → Bool
  | [] => true
  | [_] => true
  | a :: b :: rest =>
    (decide (128 ≤ a) || decide (b < 128) || decide (192 ≤ b)) &&
      noStray (b :: rest)

/-- Rust's `str::is_char_boundary i` on the byte list: `i` is 0, the
length, or in bounds at a byte that is not a continuation byte
(128-191). -/
def isBoundary (s : List Nat) (i : Nat) : Bool :=
  i == 0 || i == s.length ||
    (decide (i < s.length) &&
      (decide (s.getD i 0 < 128) || decide (192 ≤ s.getD i 0)))

theorem scan_uuid_le (l : List Nat) : scan_uuid l ≤ l.length := by
  induction l with
  | nil => simp [scan_uuid]
  | cons b rest ih =>
    unfold scan_uuid
    by_cases h : decide (b < 128) && isUuidByte b
    · rw [if_pos h]
      simpa using ih
    · rw [if_neg h]
      simp

theorem noStray_tail {a : Nat} {rest : List Nat}
    (h : noStray (a :: rest) = true) : noStray rest = true := by
  cases rest with
  | nil => rfl
  | cons b rest2 =>
    unfold noStray at h
    rw [Bool.and_eq_true] at h
    exact h.2

theorem noStray_drop {s : List Nat} (h : noStray s = true) (k : Nat) :
    noStray (s.drop k) = true := by
  induction k generalizing s with
  | zero => exact h
  | succ k ih =>
    cases s with
    | nil => rfl
    | cons a rest => exact ih (noStray_tail h)

theorem noStray_adj {s : List Nat} (h : noStray s = true) {i a b : Nat}
    (ha : s.get? i = some a) (ha128 : a < 128)
    (hb : s.get? (i + 1) = some b) : b < 128 ∨ 192 ≤ b := by
  induction s generalizing i with
  | nil => exact absurd ha (by simp)
  | cons c rest ih =>
    cases i with
    | zero =>
      simp at ha
      subst ha
      cases rest with
      | nil => exact absurd hb (by simp)
      | cons d rest2 =>
        simp at hb
        subst hb
        unfold noStray at h
        rw [Bool.and_eq_true] at h
        have h1 := h.1
        rw [Bool.or_eq_true, Bool.or_eq_true] at h1
        simp only [decide_eq_true_eq] at h1
        omega
    | succ j =>
      simp only [List.get?_cons_succ] at ha hb
      exact ih (noStray_tail h) ha hb

theorem getD_eq_of_get? {s : List Nat} {i b : Nat}
    (h : s.get? i = some b) : s.getD i 0 = b ∧ i < s.length := by
  constructor
  · rw [List.getD_eq_getD_get?, h]
    rfl
  · by_contra hc
    rw [List.get?_eq_none.mpr (by omega)] at h
    exact absurd h (by simp)

theorem boundary_of_sget {s : List Nat} {i b : Nat}
    (h : sget s i = some b) : isBoundary s i = true := by
  obtain ⟨h128, hget⟩ := sget_lt128 h
  obtain ⟨hD, hlt⟩ := getD_eq_of_get? hget
  unfold isBoundary
  rw [hD]
  simp
  omega

theorem boundary_succ_of_sget {s : List Nat} {i b : Nat}
    (hn : noStray s = true) (h : sget s i = some b) :
    isBoundary s (i + 1) = true := by
  obtain ⟨h128, hget⟩ := sget_lt128 h
  have hlt := sget_lt h
  unfold isBoundary
  by_cases he : i + 1 = s.length
  · simp [he]
  · have hlt2 : i + 1 < s.length := by omega
    cases hc : s.get? (i + 1) with
    | none =>
      have := List.get?_eq_none.mp hc
      omega
    | some c =>
      obtain ⟨hD, -⟩ := getD_eq_of_get? hc
      have := noStray_adj hn hget h128 hc
      rw [hD]
      simp
      omega

theorem boundary_zero (s : List Nat) : isBoundary s 0 = true := by
  unfold isBoundary
  simp

theorem boundary_iff {s : List Nat} {i : Nat} :
    isBoundary s i = true ↔
      (i = 0 ∨ i = s.length ∨
        (i < s.length ∧ (s.getD i 0 < 128 ∨ 192 ≤ s.getD i 0))) := by
  unfold isBoundary
  rw [Bool.or_eq_true, Bool.or_eq_true, Bool.and_eq_true, Bool.or_eq_true]
  simp
  tauto

theorem boundary_shift {s : List Nat} {k i : Nat}
    (hk : isBoundary s k = true) (hi : isBoundary (s.drop k) i = true) :
    isBoundary s (k + i) = true := by
  rw [boundary_iff] at hk hi ⊢
  simp only [List.length_drop] at hi
  rcases hi with h0 | hlen | ⟨hlt, hbyte⟩
  · subst h0
    simpa using hk
  · rcases hk with k0 | klen | ⟨hklt, -⟩
    · subst k0
      simp at hlen ⊢
      omega
    · subst klen
      omega
    · right
      left
      omega
  · right
    right
    refine ⟨by omega, ?_⟩
    have hD : (s.drop k).getD i 0 = s.getD (k + i) 0 := by
      cases hg : s.get? (k + i) with
      | none =>
        have hge := List.get?_eq_none.mp hg
        simp at hge
        omega
      | some b =>
        obtain ⟨hD2, -⟩ := getD_eq_of_get? hg
        have hg2 : (s.drop k).get? i = some b := by
          rw [List.get?_drop]
          exact hg
        obtain ⟨hD3, -⟩ := getD_eq_of_get? hg2
        rw [hD2, hD3]
    rw [← hD]
    exact hbyte

theorem boundary_drop {s : List Nat} {i j : Nat}
    (hj : isBoundary s j = true) (hij : i ≤ j) :
    isBoundary (s.drop i) (j - i) = true := by
  rw [boundary_iff] at hj ⊢
  simp only [List.length_drop]
  rcases hj with h0 | hlen | ⟨hlt, hbyte⟩
  · subst h0
    left
    omega
  · subst hlen
    right
    left
    omega
  · right
    right
    refine ⟨by omega, ?_⟩
    have hD : (s.drop i).getD (j - i) 0 = s.getD j 0 := by
      cases hg : s.get? j with
      | none =>
        have hge := List.get?_eq_none.mp hg
        omega
      | some b =>
        obtain ⟨hD2, -⟩ := getD_eq_of_get? hg
        have hg2 : (s.drop i).get? (j - i) = some b := by
          rw [List.get?_drop, show i + (j - i) = j by omega]
          exact hg
        obtain ⟨hD3, -⟩ := getD_eq_of_get? hg2
        rw [hD2, hD3]
    rw [hD]
    exact hbyte

/-- Both ends of a successful scan's range are character boundaries. -/
theorem scan_boundary {s : List Nat} {a e : Nat} (hn : noStray s = true)
    (h : Batch.scan s = some (a, e)) :
    isBoundary s a = true ∧ isBoundary s e = true := by
  obtain ⟨h1, h2, ⟨t, ht, hter⟩, hhdr⟩ := scan_some_facts h
  constructor
  · obtain ⟨w, hws, m, hm, hmk⟩ := scanHeader_initial_marker s a hhdr
    cases w with
    | zero => exact boundary_of_sget (by simpa using hm)
    | succ w2 =>
      obtain ⟨c, hc, -⟩ := hws 0 (by omega)
      exact boundary_of_sget (by simpa using hc)
  · have : e - 1 + 1 = e := by omega
    rw [← this]
    exact boundary_succ_of_sget hn ht

/-- The boundary part of the pending-span invariant. -/
def Batch.BInv (b : Batch) : Prop :=
  ∀ r, b.next = some r →
    isBoundary b.body r.1 = true ∧ isBoundary b.body r.2 = true

theorem parse_BInv {s : List Nat} (hn : noStray s = true) :
    Batch.BInv (Batch.parse s) := by
  intro r hr
  unfold Batch.parse at hr
  simp only at hr
  cases h1 : Batch.scan s with
  | none =>
    rw [h1] at hr
    have hr2 : (none : Option (Nat × Nat)) = some r := hr
    exact absurd hr2 (by simp)
  | some rgn =>
    rw [h1] at hr
    have hr2 : (if rgn.1 = 0 then
        (Batch.scan (s.drop rgn.2)).map (fun x => (x.1 + rgn.2, x.2 + rgn.2))
      else some rgn) = some r := hr
    have hb1 := scan_boundary hn (show Batch.scan s = some (rgn.1, rgn.2) by rw [h1])
    by_cases h0 : rgn.1 = 0
    · rw [if_pos h0] at hr2
      cases h2 : Batch.scan (s.drop rgn.2) with
      | none => rw [h2] at hr2; exact absurd hr2 (by simp)
      | some x =>
        rw [h2] at hr2
        have hb2 := scan_boundary (noStray_drop hn rgn.2)
          (show Batch.scan (s.drop rgn.2) = some (x.1, x.2) by rw [h2])
        simp only [Option.map_some'] at hr2
        have hrr := Option.some.inj hr2
        subst hrr
        constructor
        · show isBoundary s (x.1 + rgn.2) = true
          rw [Nat.add_comm]
          exact boundary_shift hb1.2 hb2.1
        · show isBoundary s (x.2 + rgn.2) = true
          rw [Nat.add_comm]
          exact boundary_shift hb1.2 hb2.2
    · rw [if_neg h0] at hr2
      have hrr := Option.some.inj hr2
      subst hrr
      exact hb1

theorem nextFrame_BInv {b : Batch} (hn : noStray b.body = true)
    (hinv : Batch.InvS b) (hb : Batch.BInv b) :
    Batch.BInv (Batch.nextFrame b).2 ∧ noStray (Batch.nextFrame b).2.body = true := by
  unfold Batch.nextFrame
  by_cases ht : b.body = [] ∨ b.body.head? = some 46
  · rw [if_pos ht]
    exact ⟨hb, hn⟩
  · rw [if_neg ht]
    cases hnx : b.next with
    | none =>
      constructor
      · intro r hr
        have hr2 : (none : Option (Nat × Nat)) = some r := hr
        exact absurd hr2 (by simp)
      · rfl
    | some rgn =>
      obtain ⟨h1, h2, h3⟩ := hinv rgn hnx
      obtain ⟨hba, hbe⟩ := hb rgn hnx
      constructor
      · intro r hr
        have hr2 : (Batch.scan (b.body.drop rgn.2)).map
            (fun x => (x.1 + (rgn.2 - rgn.1), x.2 + (rgn.2 - rgn.1))) = some r := hr
        cases h4 : Batch.scan (b.body.drop rgn.2) with
        | none => rw [h4] at hr2; exact absurd hr2 (by simp)
        | some x =>
          rw [h4] at hr2
          have hbx := scan_boundary (noStray_drop hn rgn.2)
            (show Batch.scan (b.body.drop rgn.2) = some (x.1, x.2) by rw [h4])
          simp only [Option.map_some'] at hr2
          have hrr := Option.some.inj hr2
          subst hrr
          have hdd : (b.body.drop rgn.1).drop (rgn.2 - rgn.1) = b.body.drop rgn.2 := by
            rw [List.drop_drop]
            congr 1
            omega
          have hkb : isBoundary (b.body.drop rgn.1) (rgn.2 - rgn.1) = true :=
            boundary_drop hbe (by omega)
          constructor
          · show isBoundary (b.body.drop rgn.1) (x.1 + (rgn.2 - rgn.1)) = true
            rw [Nat.add_comm]
            exact boundary_shift hkb (by rw [hdd]; exact hbx.1)
          · show isBoundary (b.body.drop rgn.1) (x.2 + (rgn.2 - rgn.1)) = true
            rw [Nat.add_comm]
            exact boundary_shift hkb (by rw [hdd]; exact hbx.2)
      · show noStray (b.body.drop rgn.1) = true
        exact noStray_drop hn rgn.1

theorem scan_not_terminal {s : List Nat} {rgn : Nat × Nat}
    (h : Batch.scan s = some rgn) : ¬(s = [] ∨ s.head? = some 46) := by
  rintro (hs | hs)
  · subst hs
    rw [scan_nil] at h
    exact absurd h (by simp)
  · have hg : sget s 0 = some 46 := by
      unfold sget
      cases s with
      | nil => exact absurd hs (by simp)
      | cons a rest =>
        simp at hs
        subst hs
        rfl
    have hh : scanHeader s 0 .initial = (0, .initial) :=
      scanHeader_brk hg (by rfl) (by rfl)
    rw [show Batch.scan s = scanLoop s 0 from rfl, scanLoop_initial (by rw [hh])] at h
    exact absurd h (by simp)

theorem nextFrame_eq_some {b : Batch} {rgn : Nat × Nat}
    (ht : ¬(b.body = [] ∨ b.body.head? = some 46)) (hn : b.next = some rgn) :
    Batch.nextFrame b = (some (b.body.take rgn.1),
      ⟨b.body.drop rgn.1,
        (Batch.scan (b.body.drop rgn.2)).map
          (fun x => (x.1 + (rgn.2 - rgn.1), x.2 + (rgn.2 - rgn.1)))⟩) := by
  unfold Batch.nextFrame
  rw [if_neg ht, hn]

theorem nextFrame_eq_nopending {b : Batch}
    (ht : ¬(b.body = [] ∨ b.body.head? = some 46)) (hn : b.next = none) :
    Batch.nextFrame b = (some (b.body.take b.body.length), ⟨[], none⟩) := by
  unfold Batch.nextFrame
  rw [if_neg ht, hn]

theorem parse_body (s : List Nat) : (Batch.parse s).body = s := rfl

theorem parse_next_none {s : List Nat} (h : Batch.scan s = none) :
    (Batch.parse s).next = none := by
  unfold Batch.parse
  rw [h]

theorem parse_next_zero {s : List Nat} {rgn : Nat × Nat}
    (h : Batch.scan s = some rgn) (h0 : rgn.1 = 0) :
    (Batch.parse s).next =
      (Batch.scan (s.drop rgn.2)).map (fun x => (x.1 + rgn.2, x.2 + rgn.2)) := by
  unfold Batch.parse
  rw [h]
  show (if rgn.1 = 0 then
      (Batch.scan (s.drop rgn.2)).map (fun x => (x.1 + rgn.2, x.2 + rgn.2))
    else some rgn) = _
  rw [if_pos h0]

theorem parse_next_nonzero {s : List Nat} {rgn : Nat × Nat}
    (h : Batch.scan s = some rgn) (h0 : rgn.1 ≠ 0) :
    (Batch.parse s).next = some rgn := by
  unfold Batch.parse
  rw [h]
  show (if rgn.1 = 0 then
      (Batch.scan (s.drop rgn.2)).map (fun x => (x.1 + rgn.2, x.2 + rgn.2))
    else some rgn) = _
  rw [if_neg h0]

/-- Structural evaluation twin of `Batch.parse` (for concrete inputs). -/
def parseF (s : List Nat) : Batch :=
  let n := scanLoopF (s.length + 1) s 0
  let n2 := match n with
    | some rgn =>
      if rgn.1 = 0 then
        (scanLoopF ((s.drop rgn.2).length + 1) (s.drop rgn.2) 0).map
          (fun x => (x.1 + rgn.2, x.2 + rgn.2))
      else n
    | none => n
  ⟨s, n2⟩

theorem parseF_eq (s : List Nat) : Batch.parse s = parseF s := by
  unfold Batch.parse parseF
  simp only
  rw [← scan_eval]
  cases h : Batch.scan s with
  | none => rfl
  | some rgn =>
    show Batch.mk s (if rgn.1 = 0 then
        (Batch.scan (s.drop rgn.2)).map (fun x => (x.1 + rgn.2, x.2 + rgn.2))
      else some rgn) = Batch.mk s (if rgn.1 = 0 then
        (scanLoopF ((s.drop rgn.2).length + 1) (s.drop rgn.2) 0).map
          (fun x => (x.1 + rgn.2, x.2 + rgn.2))
      else some rgn)
    rw [← scan_eval]

/-- Structural evaluation twin of `Batch.nextFrame` (for concrete inputs). -/
def nextFrameF (b : Batch) : Option (List Nat) × Batch :=
  if b.body = [] ∨ b.body.head? = some 46 then (none, b)
  else
    match b.next with
    | some rgn =>
      (some (b.body.take rgn.1),
        ⟨b.body.drop rgn.1,
          (scanLoopF ((b.body.drop rgn.2).length + 1) (b.body.drop rgn.2) 0).map
            (fun x => (x.1 + (rgn.2 - rgn.1), x.2 + (rgn.2 - rgn.1)))⟩)
    | none => (some (b.body.take b.body.length), ⟨[], none⟩)

theorem nextFrameF_eq (b : Batch) : Batch.nextFrame b = nextFrameF b := by
  unfold Batch.nextFrame nextFrameF
  by_cases ht : b.body = [] ∨ b.body.head? = some 46
  · rw [if_pos ht, if_pos ht]
  · rw [if_neg ht, if_neg ht]
    cases hn : b.next with
    | none => rfl
    | some rgn =>
      show (some (b.body.take rgn.1),
        Batch.mk (b.body.drop rgn.1)
          ((Batch.scan (b.body.drop rgn.2)).map
            (fun x => (x.1 + (rgn.2 - rgn.1), x.2 + (rgn.2 - rgn.1))))) =
        (some (b.body.take rgn.1),
        Batch.mk (b.body.drop rgn.1)
          ((scanLoopF ((b.body.drop rgn.2).length + 1) (b.body.drop rgn.2) 0).map
            (fun x => (x.1 + (rgn.2 - rgn.1), x.2 + (rgn.2 - rgn.1)))))
      rw [← scan_eval]

/-- The rank of a scan state: how far into a header group it is. -/
def stRank : Scan → Nat
  | .initial => 0
  | .sawType => 1
  | .sawObject => 2
  | .sawEvent => 3
  | .sawLoc => 4

/-- The state a header-marker byte would set: `*` (42) the type slot, `#`
(35) the object slot, `@` (64) the event slot, `:` (58) the location
slot; none for a non-marker byte. -/
def markState (b : Nat) : Option Scan :=
  if b = 42 then some .sawType
  else if b = 35 then some .sawObject
  else if b = 64 then some .sawEvent
  else if b = 58 then some .sawLoc
  else none

theorem hdrStep_other {b : Nat} (h42 : b ≠ 42) (h35 : b ≠ 35)
    (h64 : b ≠ 64) (h58 : b ≠ 58) (st : Scan) : hdrStep st b = none := by
  unfold hdrStep
  split <;> simp_all

/-- The source's ten accepted (state, marker) arms are exactly the pairs
where the marker's rank strictly exceeds the state's rank. -/
theorem hdrStep_iff (st : Scan) (b : Nat) (st2 : Scan) :
    hdrStep st b = some st2 ↔
      (markState b = some st2 ∧ stRank st < stRank st2) := by
  unfold markState
  by_cases h42 : b = 42
  · subst h42
    revert st st2
    decide
  · by_cases h35 : b = 35
    · subst h35
      revert st st2
      decide
    · by_cases h64 : b = 64
      · subst h64
        revert st st2
        decide
      · by_cases h58 : b = 58
        · subst h58
          revert st st2
          decide
        · rw [hdrStep_other h42 h35 h64 h58]
          simp [h42, h35, h64, h58]

theorem markState_vals {b : Nat} {st2 : Scan} (h : markState b = some st2) :
    b = 42 ∨ b = 35 ∨ b = 64 ∨ b = 58 := by
  unfold markState at h
  split_ifs at h <;> simp_all

/-- C1, counterexample: scanning the text `*a,#b!` (bytes 42 97 44 35 98
33) returns the byte range 3..6, although the first header marker of the
text (and the first one that began a header group during the scan) is the
`*` at position 0: after the comma the outer loop resets the range start,
so the returned range does not start at the first header marker. -/
theorem c1_counterexample :
    Batch.scan [42, 97, 44, 35, 98, 33] = some (3, 6) ∧
    sget [42, 97, 44, 35, 98, 33] 0 = some 42 ∧ (3 : Nat) ≠ 0 := by
  refine ⟨?_, by decide, by decide⟩
  rw [scan_eval]
  decide

/-- C1, amended: for every text on which `Batch::scan` returns a byte
range, the range ends at and includes the terminating `!` or `;`, and its
start is the position where the scan's last header-group phase began
(reset after each comma or `?` and at each header marker reached in the
atom phase): a possibly empty whitespace run followed by a header marker.
It does not in general start at the first header marker of the text. -/
theorem c1_thm : ∀ (s : List Nat) (a e : Nat), Batch.scan s = some (a, e) →
    a < e ∧ e ≤ s.length ∧
    (∃ t, sget s (e - 1) = some t ∧ (t = 33 ∨ t = 59)) ∧
    (∃ w, (∀ i, i < w → ∃ c, sget s (a + i) = some c ∧ isWs c = true) ∧
      ∃ m, sget s (a + w) = some m ∧ (m = 42 ∨ m = 35 ∨ m = 64 ∨ m = 58)) := by
  intro s a e h
  obtain ⟨h1, h2, h3, h4⟩ := scan_some_facts h
  exact ⟨h1, h2, h3, scanHeader_initial_marker s a h4⟩

/-- C1, witness: the amended theorem applied to the counterexample text. -/
theorem c1_witness :
    (3 : Nat) < 6 ∧ 6 ≤ ([42, 97, 44, 35, 98, 33] : List Nat).length ∧
    (∃ t, sget [42, 97, 44, 35, 98, 33] (6 - 1) = some t ∧ (t = 33 ∨ t = 59)) ∧
    (∃ w, (∀ i, i < w →
        ∃ c, sget [42, 97, 44, 35, 98, 33] (3 + i) = some c ∧ isWs c = true) ∧
      ∃ m, sget [42, 97, 44, 35, 98, 33] (3 + w) = some m ∧
        (m = 42 ∨ m = 35 ∨ m = 64 ∨ m = 58)) :=
  c1_thm [42, 97, 44, 35, 98, 33] 3 6 (by rw [scan_eval]; decide)

/-- C6, counterexample: in the text `#a#b!` (bytes 35 97 35 98 33) the
second `#`, a repeated marker of the same rank directly after `#a`, ends
the header-group phase (the header loop from `Initial` stops at position 2
in state `SawObject`, and `(SawObject, #)` is not an accepted arm), and
the returned frame range starts at 2 — whereas a header group continuing
through the repeated marker would give a range starting at 0. -/
theorem c6_counterexample :
    Batch.scan [35, 97, 35, 98, 33] = some (2, 5) ∧
    scanHeader [35, 97, 35, 98, 33] 0 .initial = (2, .sawObject) ∧
    hdrStep .sawObject 35 = none := by
  refine ⟨by rw [scan_eval]; decide, ?_, by decide⟩
  rw [← scanHeaderF_eq 6 [35, 97, 35, 98, 33] 0 .initial (by decide)]
  decide

/-- C6, amended: within one header group the markers must appear in
strictly increasing rank order Type < Object < Event < Location (any may
be omitted): a marker is consumed exactly when its rank strictly exceeds
the current state's rank, and a marker of equal or lower rank — in
particular a repeated marker of the same rank, such as a second `#`
directly after `#object` — or any other non-whitespace character ends the
header-group phase. -/
theorem c6_thm : ∀ (s : List Nat) (pos : Nat) (st : Scan) (b : Nat),
    sget s pos = some b →
    (∀ st2, markState b = some st2 → stRank st < stRank st2 →
      scanHeader s pos st =
        scanHeader s (pos + scan_uuid (s.drop (pos + 1)) + 1) st2) ∧
    (∀ st2, markState b = some st2 → stRank st2 ≤ stRank st →
      scanHeader s pos st = (pos, st)) ∧
    (markState b = none → isWs b = false → scanHeader s pos st = (pos, st)) := by
  intro s pos st b h
  refine ⟨?_, ?_, ?_⟩
  · intro st2 hm hr
    exact scanHeader_step h ((hdrStep_iff st b st2).mpr ⟨hm, hr⟩)
  · intro st2 hm hr
    refine scanHeader_brk h ?_ ?_
    · cases hs : hdrStep st b with
      | none => rfl
      | some st3 =>
        obtain ⟨hm2, hr2⟩ := (hdrStep_iff st b st3).mp hs
        rw [hm] at hm2
        have he := Option.some.inj hm2
        subst he
        omega
    · rcases markState_vals hm with hb | hb | hb | hb <;> subst hb <;> rfl
  · intro hm hw
    refine scanHeader_brk h ?_ hw
    cases hs : hdrStep st b with
    | none => rfl
    | some st3 =>
      obtain ⟨hm2, -⟩ := (hdrStep_iff st b st3).mp hs
      rw [hm] at hm2
      exact absurd hm2 (by simp)

/-- C6, witness: the amended theorem applied at the repeated `#` of the
counterexample text: from `SawObject`, the second `#` (equal rank) ends
the header phase at its own position. -/
theorem c6_witness :
    scanHeader [35, 97, 35, 98, 33] 2 .sawObject = (2, .sawObject) :=
  (c6_thm [35, 97, 35, 98, 33] 2 .sawObject 35 (by decide)).2.1 .sawObject
    (by decide) (by decide)

/-- C7, counterexample: `?` (byte 63) where an atom is expected does not
make the scan report not-found: it ends the atom run like a comma
(`Some("?") | Some(",")`, line 193) and the scan of `*a?#b!` (bytes 42 97
63 35 98 33) succeeds with the range 3..6 instead of reporting none. -/
theorem c7_counterexample :
    Batch.scan [42, 97, 63, 35, 98, 33] = some (3, 6) ∧
    scanAtoms [42, 97, 63, 35, 98, 33] 2 = .contAt 3 := by
  refine ⟨by rw [scan_eval]; decide, ?_⟩
  rw [← scanAtomsF_eq 7 [42, 97, 63, 35, 98, 33] 2 (by decide)]
  decide

/-- C7, amended: in the atom phase a comma or a `?` ends the current atom
run and continues scanning the same frame at the following position;
whitespace is skipped; and every other character that is not an atom sigil
(`=` 61, `^` 94, `>` 62, `'` 39), a header marker (`*` 42, `#` 35, `@` 64,
`:` 58), a terminator (`!` 33, `;` 59), a comma (44) or `?` (63) makes the
atom phase — and with it this scan attempt — report not-found. -/
theorem c7_thm : ∀ (s : List Nat) (pos b : Nat), sget s pos = some b →
    ((b = 63 ∨ b = 44) → scanAtoms s pos = .contAt (pos + 1)) ∧
    (isWs b = true → scanAtoms s pos = scanAtoms s (pos + 1)) ∧
    ((b ≠ 61 ∧ b ≠ 94 ∧ b ≠ 62 ∧ b ≠ 39 ∧ b ≠ 63 ∧ b ≠ 44 ∧ b ≠ 33 ∧
      b ≠ 59 ∧ b ≠ 42 ∧ b ≠ 35 ∧ b ≠ 64 ∧ b ≠ 58 ∧ isWs b = false) →
      scanAtoms s pos = .notFound) ∧
    (∀ pos2, (scanHeader s pos2 .initial).2 ≠ .initial →
      scanAtoms s (scanHeader s pos2 .initial).1 = .notFound →
      scanLoop s pos2 = none) := by
  intro s pos b h
  refine ⟨fun hb => scanAtoms_sep h hb, fun hw => scanAtoms_ws h hw, ?_,
    fun pos2 h1 h2 => scanLoop_notFound h1 h2⟩
  intro hb
  obtain ⟨b1, b2, b3, b4, b5, b6, b7, b8, b9, b10, b11, b12, bw⟩ := hb
  exact scanAtoms_other h ⟨b1, b2, b3, b4, b5, b6, b7, b8, b9, b10, b11, b12⟩ bw

/-- C7, witness: the amended theorem applied at a `.` (byte 46) in atom
position, which is none of the accepted characters: not-found. -/
theorem c7_witness : scanAtoms [42, 97, 46] 2 = AtomRes.notFound :=
  (c7_thm [42, 97, 46] 2 46 (by decide)).2.2.1 (by decide)

/-- C2: on construction, if the first scan's span starts at offset 0 the
scanner is run again after that frame and the shifted second location
becomes the pending span, so the first yielded frame extends to where the
second frame begins; if the first span does not start at offset 0, that
span itself is kept, so the first yielded value is exactly the text up to
that span's start. -/
theorem c2_thm : ∀ (s : List Nat) (rgn : Nat × Nat), Batch.scan s = some rgn →
    (rgn.1 = 0 →
      (Batch.parse s).next =
        (Batch.scan (s.drop rgn.2)).map (fun x => (x.1 + rgn.2, x.2 + rgn.2)) ∧
      (∀ x : Nat × Nat, Batch.scan (s.drop rgn.2) = some x →
        (Batch.nextFrame (Batch.parse s)).1 = some (s.take (x.1 + rgn.2)))) ∧
    (rgn.1 ≠ 0 →
      (Batch.parse s).next = some rgn ∧
      (Batch.nextFrame (Batch.parse s)).1 = some (s.take rgn.1)) := by
  intro s rgn h
  have ht : ¬((Batch.parse s).body = [] ∨ (Batch.parse s).body.head? = some 46) := by
    rw [parse_body]
    exact scan_not_terminal h
  constructor
  · intro h0
    have hn := parse_next_zero h h0
    refine ⟨hn, ?_⟩
    intro x hx
    have hn2 : (Batch.parse s).next = some (x.1 + rgn.2, x.2 + rgn.2) := by
      rw [hn, hx]
      rfl
    rw [nextFrame_eq_some ht hn2]
    rfl
  · intro h0
    have hn := parse_next_nonzero h h0
    refine ⟨hn, ?_⟩
    rw [nextFrame_eq_some ht hn]
    rfl

/-- C2, witness: on `*a! *b!` (bytes 42 97 33 32 42 98 33) the first scan
finds 0..3, the rescan of the tail finds the second frame at offset 3, and
the first yielded frame is the text up to that start. -/
theorem c2_witness :
    (Batch.nextFrame (Batch.parse [42, 97, 33, 32, 42, 98, 33])).1 =
      some (([42, 97, 33, 32, 42, 98, 33] : List Nat).take (0 + 3)) :=
  ((c2_thm [42, 97, 33, 32, 42, 98, 33] (0, 3)
      (by rw [scan_eval]; decide)).1 rfl).2 (0, 4) (by rw [scan_eval]; decide)

/-- C3, counterexample: on `*a! *b!` the first call to `next` has the
pending span 3..7 and the rescan of the text after it finds nothing, yet
the remaining buffer after that call is ` *b!` (bytes 32 42 98 33), not
empty, and the immediately following call yields that text as one more
frame instead of reporting end-of-iteration. -/
theorem c3_counterexample :
    (Batch.parse [42, 97, 33, 32, 42, 98, 33]).next = some (3, 7) ∧
    Batch.scan (([42, 97, 33, 32, 42, 98, 33] : List Nat).drop 7) = none ∧
    (Batch.nextFrame (Batch.parse [42, 97, 33, 32, 42, 98, 33])).2.body =
      [32, 42, 98, 33] ∧
    (Batch.nextFrame (Batch.nextFrame
      (Batch.parse [42, 97, 33, 32, 42, 98, 33])).2).1 = some [32, 42, 98, 33] := by
  refine ⟨by rw [parseF_eq]; decide, by rw [scan_eval]; decide, ?_, ?_⟩
  · simp only [parseF_eq, nextFrameF_eq]
    decide
  · simp only [parseF_eq, nextFrameF_eq]
    decide

/-- C3, amended: in a call to `next` with a pending span whose rescan
finds no further frame, the pending span becomes none and the buffer is
advanced to the span's start — it is not cleared.  The clearing happens in
the following call (no pending span): it yields the whole remaining buffer
as a final frame and empties the buffer, so only the call after that one
reports end-of-iteration. -/
theorem c3_thm : ∀ (b : Batch) (rgn : Nat × Nat),
    ¬(b.body = [] ∨ b.body.head? = some 46) → b.next = some rgn →
    Batch.scan (b.body.drop rgn.2) = none →
    (Batch.nextFrame b).2.next = none ∧
    (Batch.nextFrame b).2.body = b.body.drop rgn.1 ∧
    (¬((Batch.nextFrame b).2.body = [] ∨
        (Batch.nextFrame b).2.body.head? = some 46) →
      (Batch.nextFrame (Batch.nextFrame b).2).1 = some (b.body.drop rgn.1) ∧
      (Batch.nextFrame (Batch.nextFrame b).2).2 = ⟨[], none⟩ ∧
      (Batch.nextFrame (Batch.nextFrame (Batch.nextFrame b).2).2).1 = none) := by
  intro b rgn ht hn hs
  have he := nextFrame_eq_some ht hn
  have h1 : (Batch.nextFrame b).2.next = none := by
    rw [he, hs]
    rfl
  have h2 : (Batch.nextFrame b).2.body = b.body.drop rgn.1 := by
    rw [he]
  refine ⟨h1, h2, ?_⟩
  intro ht2
  have he2 := nextFrame_eq_nopending ht2 h1
  rw [he2]
  refine ⟨?_, rfl, rfl⟩
  rw [h2]
  simp

/-- C3, witness: the amended theorem applied to the `*a! *b!` state. -/
theorem c3_witness :
    (Batch.nextFrame (⟨[42, 97, 33, 32, 42, 98, 33], some (3, 7)⟩ : Batch)).2.next =
        none ∧
    (Batch.nextFrame (⟨[42, 97, 33, 32, 42, 98, 33], some (3, 7)⟩ : Batch)).2.body =
      ([42, 97, 33, 32, 42, 98, 33] : List Nat).drop 3 ∧
    (Batch.nextFrame (Batch.nextFrame
        (⟨[42, 97, 33, 32, 42, 98, 33], some (3, 7)⟩ : Batch)).2).1 =
      some (([42, 97, 33, 32, 42, 98, 33] : List Nat).drop 3) ∧
    (Batch.nextFrame (Batch.nextFrame
        (⟨[42, 97, 33, 32, 42, 98, 33], some (3, 7)⟩ : Batch)).2).2 =
      (⟨[], none⟩ : Batch) ∧
    (Batch.nextFrame (Batch.nextFrame (Batch.nextFrame
        (⟨[42, 97, 33, 32, 42, 98, 33], some (3, 7)⟩ : Batch)).2).2).1 = none := by
  have h := c3_thm ⟨[42, 97, 33, 32, 42, 98, 33], some (3, 7)⟩ (3, 7)
    (by decide) rfl (by rw [scan_eval]; decide)
  have h3 := h.2.2 (by simp only [nextFrameF_eq]; decide)
  exact ⟨h.1, h.2.1, h3.1, h3.2.1, h3.2.2⟩

/-- C8: iteration is finite — from any parsed batch, after at most
`length + 1` calls `next` returns none; `next` returns none exactly when
the remaining buffer is empty or begins with the sentinel `.` (byte 46);
a call that returns none leaves the state unchanged, so exhaustion is
idempotent; and the empty input yields no items at all. -/
theorem c8_thm :
    (∀ s : List Nat,
      (Batch.nextFrame (Batch.iterB (Batch.parse s) (s.length + 1))).1 = none) ∧
    (∀ b : Batch,
      ((Batch.nextFrame b).1 = none ↔ (b.body = [] ∨ b.body.head? = some 46))) ∧
    (∀ b : Batch, (Batch.nextFrame b).1 = none → (Batch.nextFrame b).2 = b) ∧
    (Batch.nextFrame (Batch.parse [])).1 = none := by
  refine ⟨?_, nextFrame_none_iff, fun b => nextFrame_none_state, ?_⟩
  · intro s
    have h := nextFrame_exhaust (parse_InvS s)
    rwa [parse_body] at h
  · rw [parse_nil]
    rfl

/-- C8, witness: the idempotence part applied to the exhausted state. -/
theorem c8_witness :
    (Batch.nextFrame (⟨[], none⟩ : Batch)).2 = (⟨[], none⟩ : Batch) :=
  c8_thm.2.2.1 ⟨[], none⟩ rfl

theorem nextFrame_Inv9 {b : Batch}
    (h : ∀ r, b.next = some r → r.1 < r.2 ∧ r.2 ≤ b.body.length) :
    ∀ r, (Batch.nextFrame b).2.next = some r →
      r.1 < r.2 ∧ r.2 ≤ (Batch.nextFrame b).2.body.length := by
  unfold Batch.nextFrame
  by_cases ht : b.body = [] ∨ b.body.head? = some 46
  · rw [if_pos ht]
    exact h
  · rw [if_neg ht]
    cases hn : b.next with
    | none =>
      intro r hr
      have hr2 : (none : Option (Nat × Nat)) = some r := hr
      exact absurd hr2 (by simp)
    | some rgn =>
      intro r hr
      obtain ⟨h2, h3⟩ := h rgn hn
      have hr2 : (Batch.scan (b.body.drop rgn.2)).map
          (fun x => (x.1 + (rgn.2 - rgn.1), x.2 + (rgn.2 - rgn.1))) = some r := hr
      cases h4 : Batch.scan (b.body.drop rgn.2) with
      | none => rw [h4] at hr2; exact absurd hr2 (by simp)
      | some x =>
        rw [h4] at hr2
        obtain ⟨hb1, hb2, -⟩ := scan_some_facts
          (show Batch.scan (b.body.drop rgn.2) = some (x.1, x.2) by rw [h4])
        simp only [Option.map_some'] at hr2
        have hrr := Option.some.inj hr2
        subst hrr
        have hd : (b.body.drop rgn.2).length = b.body.length - rgn.2 := by simp
        show x.1 + (rgn.2 - rgn.1) < x.2 + (rgn.2 - rgn.1) ∧
          x.2 + (rgn.2 - rgn.1) ≤ (b.body.drop rgn.1).length
        simp only [List.length_drop]
        omega

/-- C9: the pending-span invariant — whenever the stored pending span is
present its start is strictly below its end and its end does not exceed
the current buffer's length — holds immediately after `Batch::parse` and
is preserved by every call to `next`. -/
theorem c9_thm :
    (∀ s : List Nat, ∀ r, (Batch.parse s).next = some r →
      r.1 < r.2 ∧ r.2 ≤ (Batch.parse s).body.length) ∧
    (∀ b : Batch, (∀ r, b.next = some r → r.1 < r.2 ∧ r.2 ≤ b.body.length) →
      ∀ r, (Batch.nextFrame b).2.next = some r →
        r.1 < r.2 ∧ r.2 ≤ (Batch.nextFrame b).2.body.length) := by
  refine ⟨?_, fun b h => nextFrame_Inv9 h⟩
  intro s r hr
  have h := parse_InvS s r hr
  exact ⟨h.2.1, h.2.2⟩

/-- C9, witness: preservation applied to the batch holding `*a! *b! *c!`
with pending span 3..7; the rescan yields the span 4..8 inside the
advanced buffer. -/
theorem c9_witness :
    (4 : Nat) < 8 ∧ 8 ≤ (Batch.nextFrame
      (⟨[42, 97, 33, 32, 42, 98, 33, 32, 42, 99, 33], some (3, 7)⟩ :
        Batch)).2.body.length :=
  c9_thm.2 ⟨[42, 97, 33, 32, 42, 98, 33, 32, 42, 99, 33], some (3, 7)⟩
    (by
      intro r hr
      have h2 : r = (3, 7) := (Option.some.inj hr).symm
      subst h2
      decide)
    (4, 8) (by simp only [nextFrameF_eq]; decide)

/-- C10: totality and in-bounds slicing.  `scan_uuid` never exceeds its
argument's length; on valid UTF-8 (modelled by `noStray`, the consequence
that no continuation byte follows an ASCII byte) every one-byte read
`s.get(pos..pos+1)` that succeeds sits at a character boundary with
`pos + 1` in bounds and on a boundary (covering every `&s[pos + 1..]`
slice); a successful scan's range is in bounds with both ends on
boundaries (covering `&b[rgn.end..]`); and the parse/next state keeps
every pending span in bounds and on boundaries over a still-valid buffer
(covering `&s[..end]`, `&s[start..]`, `&self.body[end..]` and the owned
`replace_range(0..start)`). -/
theorem c10_thm :
    (∀ l : List Nat, scan_uuid l ≤ l.length) ∧
    (∀ (s : List Nat) (pos b : Nat), noStray s = true → sget s pos = some b →
      pos + 1 ≤ s.length ∧ isBoundary s pos = true ∧
        isBoundary s (pos + 1) = true) ∧
    (∀ (s : List Nat) (a e : Nat), noStray s = true →
      Batch.scan s = some (a, e) →
      a < e ∧ e ≤ s.length ∧ isBoundary s a = true ∧ isBoundary s e = true) ∧
    (∀ s : List Nat, noStray s = true →
      Batch.InvS (Batch.parse s) ∧ Batch.BInv (Batch.parse s)) ∧
    (∀ b : Batch, noStray b.body = true → Batch.InvS b → Batch.BInv b →
      Batch.InvS (Batch.nextFrame b).2 ∧ Batch.BInv (Batch.nextFrame b).2 ∧
        noStray (Batch.nextFrame b).2.body = true) := by
  refine ⟨scan_uuid_le, ?_, ?_, ?_, ?_⟩
  · intro s pos b hn h
    exact ⟨sget_lt h, boundary_of_sget h, boundary_succ_of_sget hn h⟩
  · intro s a e hn h
    obtain ⟨h1, h2, -⟩ := scan_some_facts h
    obtain ⟨hb1, hb2⟩ := scan_boundary hn h
    exact ⟨h1, h2, hb1, hb2⟩
  · intro s hn
    exact ⟨parse_InvS s, parse_BInv hn⟩
  · intro b hn hi hb
    obtain ⟨x1, x2⟩ := nextFrame_BInv hn hi hb
    exact ⟨nextFrame_InvS hi, x1, x2⟩

/-- C10, witness: the scan-range part applied to the text `*a,#b!`. -/
theorem c10_witness :
    (3 : Nat) < 6 ∧ 6 ≤ ([42, 97, 44, 35, 98, 33] : List Nat).length ∧
    isBoundary [42, 97, 44, 35, 98, 33] 3 = true ∧
    isBoundary [42, 97, 44, 35, 98, 33] 6 = true :=
  c10_thm.2.2.1 [42, 97, 44, 35, 98, 33] 3 6 (by decide)
    (by rw [scan_eval]; decide)

/-- C4: `Batch::index` fails (returns none) exactly when two frames whose
first headers name the same object report different type identifiers
(`Batch.index peek b` is by definition `indexList peek (Batch.frames b)
[]`, so the iff over arbitrary frame lists covers every batch); frames
whose first header cannot be parsed are skipped without error; a batch
yielding no headered frames indexes to the empty mapping; and indexing the
empty text succeeds with the empty mapping. -/
theorem c4_thm :
    (∀ (peek : List Nat → Option Op) (fs : List (List Nat)),
      (indexList peek fs [] = none ↔ Conflict peek fs)) ∧
    (∀ (peek : List Nat → Option Op) (f : List Nat) (rest : List (List Nat))
      (acc : List Entry), peek f = none →
      indexList peek (f :: rest) acc = indexList peek rest acc) ∧
    (∀ (peek : List Nat → Option Op) (fs : List (List Nat)),
      (∀ f ∈ fs, peek f = none) → indexList peek fs [] = some []) ∧
    (∀ peek : List Nat → Option Op, Batch.index peek (Batch.parse []) = some []) := by
  refine ⟨?_, fun peek f rest acc hp => indexList_skip hp,
    fun peek fs h => indexList_all_skip h, ?_⟩
  · intro peek fs
    constructor
    · intro h
      have hc := indexList_none_conflict fs [] []
        (fun en hen => absurd hen (by simp)) h
      simpa using hc
    · intro hc
      cases h : indexList peek fs [] with
      | none => rfl
      | some r => exact absurd hc (indexList_some_no_conflict h)
  · intro peek
    unfold Batch.index
    rw [frames_nil]
    rfl

/-- C4, witness: a single frame with no parseable header indexes to the
empty mapping. -/
theorem c4_witness :
    indexList (fun _ => none) [[42]] [] = some [] :=
  c4_thm.2.2.1 (fun _ => none) [[42]] (fun f hf => rfl)

/-- C5: per indexed object, zero frames write nothing; exactly one frame
writes that frame's raw text verbatim with no warning; more than one frame
with a type that is neither of the two reserved identifiers writes the
seed (the last frame, removed from the list) followed by the remaining
history frames' raw texts in list order, verbatim, and records the
unsupported-type warning; and `reduce_all` emits exactly these per-object
bytes entry by entry. -/
theorem c5_thm : ∀ (lwwR setR : List Nat → List (List Nat) → Option (List Nat))
    (lww set ty : Nat) (fs : List (List Nat)),
    reduceObj lwwR setR lww set ty [] = ([], false) ∧
    (∀ f : List Nat, reduceObj lwwR setR lww set ty [f] = (f, false)) ∧
    (2 ≤ fs.length → ty ≠ lww → ty ≠ set →
      reduceObj lwwR setR lww set ty fs =
        (fs.getLastD [] ++ fs.dropLast.flatten, true)) ∧
    (∀ (o : Nat) (rest : List Entry),
      Batch.reduce_all lwwR setR lww set ((o, ty, fs) :: rest) =
        ((reduceObj lwwR setR lww set ty fs).1 ++
          (Batch.reduce_all lwwR setR lww set rest).1,
         (reduceObj lwwR setR lww set ty fs).2 ||
          (Batch.reduce_all lwwR setR lww set rest).2)) := by
  intro lwwR setR lww set ty fs
  refine ⟨rfl, fun f => rfl, ?_, fun o rest => rfl⟩
  intro hlen h1 h2
  cases fs with
  | nil => simp at hlen
  | cons f fs1 =>
    cases fs1 with
    | nil => simp at hlen
    | cons g fs2 =>
      show (if ty = lww then
          ((lwwR ((f :: g :: fs2).getLastD []) ((f :: g :: fs2).dropLast)).getD [],
            false)
        else if ty = set then
          ((setR ((f :: g :: fs2).getLastD []) ((f :: g :: fs2).dropLast)).getD [],
            false)
        else ((f :: g :: fs2).getLastD [] ++ (f :: g :: fs2).dropLast.flatten,
          true)) = _
      rw [if_neg h1, if_neg h2]

/-- C5, witness: an unrecognized type with two frames emits seed then
history verbatim and records the warning. -/
theorem c5_witness :
    reduceObj (fun _ _ => none) (fun _ _ => none) 0 1 2 [[7], [8]] =
      ([8, 7], true) := by
  have h := (c5_thm (fun _ _ => none) (fun _ _ => none) 0 1 2 [[7], [8]]).2.2.1
    (by decide) (by decide) (by decide)
  rw [h]
  decide
